import Mathlib

/-!
# System Inspector (`inspector.c`): a shallow embedding

C strings are modelled as `List Char` (the characters before the terminating
NUL).  Loops that the C code runs over a string or a stream are modelled
with an explicit iteration budget; the theorems show that the budget the
wrappers supply is always sufficient.
-/

namespace Inspector

/-! ## Tokenizer -/

/-- The libc `strcspn`: length of the longest prefix of `s` that contains no
character of `reject`. -/
def strcspn (s reject : List Char) : Nat :=
  match s with
  | [] => 0
  | c :: cs => if c ∈ reject then 0 else strcspn cs reject + 1

/-- `get_index(str1, delm)`: index of the first occurrence of a delimiter. -/
def get_index (str1 delm : List Char) : Nat :=
  strcspn str1 delm

/-- The `while` loop of `tokenize`.  `retval` holds the tokens stored so far
(`rv` is its length), `str1` is the current remainder.  Each iteration copies
`str1[0..n)` into `temp`, `str1[n+1..]` into `temp2`, stores `temp` and goes on
with `temp2`; on exit the remainder is stored as the last token.  The first
argument bounds the number of iterations; `none` means the bound was hit. -/
def tokenizeLoop : Nat → List (List Char) → List Char → List Char → Option (List (List Char))
  | 0, _, _, _ => none
  | fuel + 1, retval, str1, delm =>
    let n := get_index str1 delm
    if n ≠ str1.length then
      let temp := str1.take n
      let temp2 := str1.drop (n + 1)
      tokenizeLoop fuel (retval ++ [temp]) temp2 delm
    else
      some (retval ++ [str1])

/-- `tokenize(retval, str1, delm)`: the tokens written to `retval[0..rv)`.
The loop shortens `str1` by at least one character per iteration, so
`strlen(str1) + 1` iterations always suffice (`tokenizeLoop_eq`). -/
def tokenize (str1 delm : List Char) : Option (List (List Char)) :=
  tokenizeLoop (str1.length + 1) [] str1 delm

/-- The value `rv` returned by `tokenize`: the number of tokens stored. -/
def tokenizeCount (str1 delm : List Char) : Option Nat :=
  (tokenize str1 delm).map List.length

/-- Specification of field splitting: cut `s` at every character that belongs
to the delimiter set `D`, keeping empty segments and the final remainder. -/
def cutAtDelims (D : List Char) : List Char → List (List Char)
  | [] => [[]]
  | c :: cs =>
    if c ∈ D then [] :: cutAtDelims D cs
    else
      match cutAtDelims D cs with
      | [] => [[c]]
      | seg :: rest => (c :: seg) :: rest

/-! ## Faults

Conditions under which the C program has no defined result.  The model makes
them explicit instead of inventing a value. -/

/-- Ways in which a run of the modelled code fails to produce a value. -/
inductive Abort where
  /-- An object is read before anything was stored in it. -/
  | uninitialised
  /-- A string is read past the end of the array that holds it. -/
  | outOfBounds
  /-- A floating-point quotient with divisor zero is evaluated. -/
  | divisionByZero
  /-- The iteration budget of a modelled loop was exhausted. -/
  | unterminated
  deriving DecidableEq, Repr

/-- Equality of results is decidable, so that runs on concrete inputs can be
evaluated. -/
instance decEqExcept {ε α : Type} [DecidableEq ε] [DecidableEq α] : DecidableEq (Except ε α)
  | .ok a, .ok b =>
    if h : a = b then isTrue (by rw [h]) else isFalse (fun h2 => h (Except.ok.inj h2))
  | .error a, .error b =>
    if h : a = b then isTrue (by rw [h]) else isFalse (fun h2 => h (Except.error.inj h2))
  | .ok _, .error _ => isFalse (fun h => Except.noConfusion h)
  | .error _, .ok _ => isFalse (fun h => Except.noConfusion h)

/-! ## Line reader -/

/-- The string terminator. -/
def NUL : Char := Char.ofNat 0

/-- The constant `BUF_SZ`. -/
def BUF_SZ : Nat := 1024

/-- The assignment `*(str + i) = c` on the cells `str[0..size)` of the
destination array; a cell is `none` until something is stored in it.  An
offset outside the array leaves the cells as they are (the offset is still
recorded by `read_line_loop`). -/
def store (str : List (Option Char)) (i : Int) (c : Char) : List (Option Char) :=
  if 0 ≤ i then str.set i.toNat (some c) else str

/-- What `read_line` leaves behind. -/
structure ReadLine where
  /-- The cells of the destination array after the call. -/
  str : List (Option Char)
  /-- Every offset `i` of an assignment `*(str + i) = …`, in program order. -/
  writes : List Int
  /-- The unread remainder of the stream. -/
  fd : List Char
  /-- The returned value. -/
  total : Int

/-- The loop of `read_line` together with the code after it.  The stream is
the list of bytes still to be delivered by `read(fd, &t, 1)`; an exhausted
stream makes `read` return `0` and ends the loop. -/
def read_line_loop (size : Nat) : List Char → Int → List (Option Char) → List Int → ReadLine
  | [], total, str, writes =>
    ⟨store str (total - 1) NUL, writes ++ [total - 1], [], total⟩
  | t :: fd, total, str, writes =>
    let str := store str total t
    let writes := writes ++ [total]
    let total := total + 1
    if total + 2 > (size : Int) then
      ⟨store str total NUL, writes ++ [total], fd, total⟩
    else if t = '\n' then
      ⟨store str (total - 1) NUL, writes ++ [total - 1], fd, total⟩
    else
      read_line_loop size fd total str writes

/-- `read_line(str, size, fd)`.  The counter `total` is an `int`; it never
exceeds `size - 1` when `2 ≤ size`, so it is kept as an integer. -/
def read_line (str : List (Option Char)) (size : Nat) (fd : List Char) : ReadLine :=
  read_line_loop size fd 0 str []

/-- The C string held by an array: the characters before the first NUL. -/
def cstr : List (Option Char) → Except Abort (List Char)
  | [] => .error .outOfBounds
  | none :: _ => .error .uninitialised
  | some c :: cs => if c = NUL then .ok [] else (cstr cs).map (c :: ·)

/-! ## Character classes, trimming, number parsing -/

/-- The libc `isspace` in the C locale: space, `\t`, `\n`, `\v`, `\f`, `\r`. -/
def isspace (c : Char) : Bool :=
  c.toNat = 32 || (9 ≤ c.toNat && c.toNat ≤ 13)

/-- The libc `isdigit`. -/
def isdigit (c : Char) : Bool :=
  48 ≤ c.toNat && c.toNat ≤ 57

/-- The backward scan `while(end > str && isspace(*end)) end--;` of
`trimwhitespace`, started at offset `e`: the offset at which it stops. -/
def trimEnd (str : List Char) : Nat → Nat
  | 0 => 0
  | e + 1 => if isspace (str.getD (e + 1) NUL) then trimEnd str e else e + 1

/-- `trimwhitespace(str)`: the string the returned pointer designates. -/
def trimwhitespace (str : List Char) : List Char :=
  let str := str.dropWhile isspace
  match str with
  | [] => str
  | _ :: _ => str.take (trimEnd str (str.length - 1) + 1)

/-- Reads a maximal run of decimal digits: the number read so far, the count
of digits read so far, and the rest of the input. -/
def readDigits : List Char → Nat → Nat → Nat × Nat × List Char
  | [], acc, n => (acc, n, [])
  | c :: cs, acc, n =>
    if isdigit c then readDigits cs (10 * acc + (c.toNat - 48)) (n + 1) else (acc, n, c :: cs)

/-- A model of the libc `atof` on decimal input, with exact rational value:
optional white space, optional sign, digits with an optional fraction, and an
optional decimal exponent; `0` when no number can be read.  Hexadecimal,
`inf` and `nan` forms are not covered.  Functions that call `atof` take it as
a parameter; this model instantiates them on concrete files. -/
def atofDecimal (nptr : List Char) : ℚ :=
  let s := nptr.dropWhile isspace
  let (neg, s) :=
    match s with
    | '-' :: r => (true, r)
    | '+' :: r => (false, r)
    | _ => (false, s)
  let (ip, ni, s) := readDigits s 0 0
  let (fp, nf, s) :=
    match s with
    | '.' :: r => readDigits r 0 0
    | _ => (0, 0, s)
  if ni + nf = 0 then 0
  else
    let mant : ℚ := (ip : ℚ) + (fp : ℚ) / (10 : ℚ) ^ nf
    let scaled : ℚ :=
      match s with
      | e :: r =>
        if e = 'e' ∨ e = 'E' then
          let (eneg, r) :=
            match r with
            | '-' :: r2 => (true, r2)
            | '+' :: r2 => (false, r2)
            | _ => (false, r)
          let (ev, ne, _) := readDigits r 0 0
          if ne = 0 then mant
          else if eneg then mant / (10 : ℚ) ^ ev else mant * (10 : ℚ) ^ ev
        else mant
      | [] => mant
    if neg then -scaled else scaled

/-! ## Arrays of token pointers -/

/-- The effect of `tokenize(retval, …)` on an array of pointers whose
initialised prefix is `retval`: the first slots receive the new tokens, the
slots behind them keep what they held. -/
def storeTokens (retval toks : List (List Char)) : List (List Char) :=
  toks ++ retval.drop toks.length

/-- The read `arr[i]` of a pointer array with initialised prefix `arr`. -/
def slot (arr : List (List Char)) (i : Nat) : Except Abort (List Char) :=
  match arr[i]? with
  | some s => .ok s
  | none => .error .uninitialised

/-- `tokenize` as a step of a caller: running out of budget is a fault. -/
def tokenizeE (str1 delm : List Char) : Except Abort (List (List Char)) :=
  match tokenize str1 delm with
  | some toks => .ok toks
  | none => .error .unterminated

/-! ## Uptime and CPU usage -/

/-- `get_uptime(uptimeList)`: the pair `(uptimeList[0], uptimeList[1])`, read
from the first line of the `uptime` file, whose content is the argument. -/
def get_uptime (atof : List Char → ℚ) (uptimeFile : List Char) : Except Abort (ℚ × ℚ) := do
  let r := read_line (List.replicate BUF_SZ none) BUF_SZ uptimeFile
  let uptime ← cstr r.str
  let p ← tokenizeE uptime [' ']
  let p0 ← slot p 0
  let p1 ← slot p 1
  pure (atof p0, atof p1)

/-- The arithmetic of `cpu_usage` on the two sampled arrays `first` and
`second` (component `.1` is index `0`, component `.2` is index `1`). -/
def cpu_time (first second : ℚ × ℚ) : ℚ :=
  if second.2 - first.2 = 0 then 0
  else 1 - (second.1 - first.1) / (second.2 - first.2)

/-- `cpu_usage()`: the arguments are the contents of the `uptime` file at
the first and at the second call of `get_uptime` (one second apart). -/
def cpu_usage (atof : List Char → ℚ) (uptime1 uptime2 : List Char) : Except Abort ℚ := do
  let first ← get_uptime atof uptime1
  let second ← get_uptime atof uptime2
  pure (cpu_time first second)

/-- `cpu_usage_liveview(first)`: `first` is the baseline array, the second
argument is the content of the `uptime` file at the call of `get_uptime`.
The quotient is evaluated without a test of its divisor. -/
def cpu_usage_liveview (atof : List Char → ℚ) (first : ℚ × ℚ) (uptime : List Char) :
    Except Abort ℚ := do
  let second2 ← get_uptime atof uptime
  if second2.2 - first.2 = 0 then .error .divisionByZero
  else pure (1 - (second2.1 - first.1) / (second2.2 - first.2))

/-! ## Memory usage -/

/-- The locals of `mem_usage` that survive an iteration of its loop. -/
structure MemState where
  /-- The initialised prefix of the pointer array `listTotal`. -/
  listTotal : List (List Char)
  /-- The variable `totalmem`; `none` until it is assigned. -/
  totalmem : Option ℚ
  /-- The variable `freemem`; `none` until it is assigned. -/
  freemem : Option ℚ

/-- The body of the loop of `mem_usage` for one line held in `memTot`. -/
def mem_usage_line (atof : List Char → ℚ) (memTot : List Char) (st : MemState) :
    Except Abort MemState := do
  let toks ← tokenizeE memTot [':']
  let listTotal := storeTokens st.listTotal toks
  let temp := trimwhitespace (← slot listTotal 0)
  let freemem ←
    if temp = "MemFree".toList then (slot listTotal 1).map (fun v => some (atof v))
    else pure st.freemem
  let totalmem ←
    if temp = "MemTotal".toList then (slot listTotal 1).map (fun v => some (atof v))
    else pure st.totalmem
  pure ⟨listTotal, totalmem, freemem⟩

/-- The loop `while(read_line(memTot, BUF_SZ, fd) != 0)` of `mem_usage`. -/
def mem_usage_loop (atof : List Char → ℚ) :
    Nat → List (Option Char) → List Char → MemState → Except Abort MemState
  | 0, _, _, _ => .error .unterminated
  | fuel + 1, memTot, fd, st =>
    let r := read_line memTot BUF_SZ fd
    if r.total ≠ 0 then do
      let line ← cstr r.str
      let st ← mem_usage_line atof line st
      mem_usage_loop atof fuel r.str r.fd st
    else
      pure st

/-- The code of `mem_usage` after its loop. -/
def mem_usage_finish (st : MemState) : Except Abort ℚ :=
  match st.totalmem, st.freemem with
  | some totalmem, some freemem =>
    let used := totalmem - freemem
    if used < 0 then .ok 0
    else if totalmem = 0 then .error .divisionByZero
    else .ok (used / totalmem)
  | _, _ => .error .uninitialised

/-- `mem_usage()`: the argument is the content of the `meminfo` file.  Every
iteration of the loop consumes at least one byte, so `length + 1` iterations
suffice. -/
def mem_usage (atof : List Char → ℚ) (meminfo : List Char) : Except Abort ℚ := do
  let st ← mem_usage_loop atof (meminfo.length + 1) (List.replicate BUF_SZ none) meminfo
    ⟨[], none, none⟩
  mem_usage_finish st

/-! ## Meminfo streams of `Key: value` lines -/

/-- A `Key: value` line, given by the text before the colon and the text
after it: neither contains a colon, a newline or a NUL, and the line leaves
room in a buffer of `BUF_SZ` cells. -/
def MeminfoEntry (e : List Char × List Char) : Prop :=
  (∀ c ∈ e.1, c ≠ ':' ∧ c ≠ '\n' ∧ c ≠ NUL) ∧
  (∀ c ∈ e.2, c ≠ ':' ∧ c ≠ '\n' ∧ c ≠ NUL) ∧
  e.1.length + e.2.length + 4 ≤ BUF_SZ

/-- Well-formedness of a line can be checked. -/
instance decMeminfoEntry (e : List Char × List Char) : Decidable (MeminfoEntry e) := by
  unfold MeminfoEntry
  infer_instance

/-- The bytes of a meminfo stream made of the given lines, each written as
key, colon, value, newline. -/
def renderMeminfo : List (List Char × List Char) → List Char
  | [] => []
  | e :: es => (e.1 ++ ':' :: e.2) ++ '\n' :: renderMeminfo es

/-- The value carried by the last line whose trimmed key is `key`, or `acc`
when there is no such line. -/
def lastValue (atof : List Char → ℚ) (key : List Char) :
    Option ℚ → List (List Char × List Char) → Option ℚ
  | acc, [] => acc
  | acc, e :: es =>
    lastValue atof key (if trimwhitespace e.1 = key then some (atof e.2) else acc) es

/-! ## Uptime breakdown -/

/-- The conversion `(int)x` of a `double` to `int`: truncation toward zero.
A `double` is given by the rational number it denotes. -/
def toInt (x : ℚ) : Int :=
  Int.tdiv x.num x.den

/-- The five values `print_uptime` computes before it prints. -/
structure UptimeFields where
  /-- The variable `years`. -/
  years : Int
  /-- The variable `days`. -/
  days : Int
  /-- The variable `hours`. -/
  hours : Int
  /-- The variable `minutes`. -/
  minutes : Int
  /-- The variable `seconds`. -/
  seconds : Int
  deriving DecidableEq, Repr

/-- The assignments to `years`, `days`, `hours`, `minutes` and `seconds` in
`print_uptime`, for `uptime = d[0]`; `/` and `%` on `int` truncate toward
zero. -/
def uptime_fields (uptime : ℚ) : UptimeFields :=
  { years := (toInt uptime).tdiv 31536000
    days := ((toInt uptime).tmod 31536000).tdiv 86400
    hours := (((toInt uptime).tmod 31536000).tmod 86400).tdiv 3600
    minutes := ((((toInt uptime).tmod 31536000).tmod 86400).tmod 3600).tdiv 60
    seconds := (((toInt uptime).tmod 31536000).tmod 86400).tmod 60 }

/-! ## Percentage bars

An arithmetic operation on `double` is the exact operation on rationals
followed by rounding to the nearest `double`. -/

/-- The exponent of the binade of a positive number in the `double` format:
the greatest `e` with `2^e ≤ x`, and `-1022` for the subnormal range. -/
def binade (x : ℚ) : Int :=
  max (Int.log 2 x) (-1022)

/-- Rounding to the nearest integer, a tie going to the even neighbour. -/
def roundHalfEven (y : ℚ) : Int :=
  if y - ⌊y⌋ < 1 / 2 then ⌊y⌋
  else if 1 / 2 < y - ⌊y⌋ then ⌊y⌋ + 1
  else if ⌊y⌋ % 2 = 0 then ⌊y⌋ else ⌊y⌋ + 1

/-- The `double` that an arithmetic operation with exact result `x` returns
(IEEE 754 binary64, round to nearest, ties to even): `x` rounded to 53
significant bits.  Results of magnitude `2^1024` or more, which overflow to
an infinity, are not covered. -/
def roundDouble (x : ℚ) : ℚ :=
  if x = 0 then 0
  else (roundHalfEven (x / (2 : ℚ) ^ (binade |x| - 52)) : ℚ) * (2 : ℚ) ^ (binade |x| - 52)

/-- The initialiser `int num_hash = (percentage*100)/5;`: the product and the
quotient are computed in `double`, the quotient is then converted to `int`. -/
def num_hash (percentage : ℚ) : Int :=
  toInt (roundDouble (roundDouble (percentage * 100) / 5))

/-- `percentage_bar(percentage)`: the characters printed.  The two `while`
loops print `num_hash` times `#` and `num_hip` times `-` (nothing for a count
that is not positive); `fmt1` renders the conversion `%.1f` of `printf`. -/
def percentage_bar (fmt1 : ℚ → List Char) (percentage : ℚ) : List Char :=
  let num_hash : Int := toInt (roundDouble (roundDouble (percentage * 100) / 5))
  let num_hip : Int := 20 - num_hash
  '[' :: (List.replicate num_hash.toNat '#' ++ (List.replicate num_hip.toNat '-' ++
    (']' :: ' ' :: (fmt1 (roundDouble (100 * percentage)) ++ ['%']))))

/-- `percentage_bar_mem(percentage)`: the characters printed. -/
def percentage_bar_mem (fmt1 : ℚ → List Char) (percentage : ℚ) : List Char :=
  let num_hash : Int := toInt (roundDouble (roundDouble (percentage * 100) / 5))
  let num_hip : Int := 20 - num_hash
  '[' :: (List.replicate num_hash.toNat '#' ++ (List.replicate num_hip.toNat '-' ++
    (']' :: ' ' :: (fmt1 (roundDouble (100 * percentage)) ++ ['%']))))

/-- The cells of a printed bar: what stands between the opening bracket and
the first closing bracket. -/
def barCells (out : List Char) : List Char :=
  (out.drop 1).takeWhile (fun c => c ≠ ']')

/-! ## View selection in `main` -/

/-- The struct `view_opts`. -/
structure view_opts where
  /-- Hardware Information is enabled. -/
  hardware : Bool
  /-- Live view is enabled. -/
  live_view : Bool
  /-- System Information is enabled. -/
  system : Bool
  /-- Task Information is enabled. -/
  task_list : Bool
  deriving DecidableEq, Repr

/-- The sections `main` can produce. -/
inductive Section where
  /-- The block headed `System Information`. -/
  | system
  /-- The block headed `Hardware Information`. -/
  | hardware
  /-- The block headed `Task Information`. -/
  | task
  /-- The output of `live_view()`, which does not return. -/
  | live
  deriving DecidableEq, Repr

/-- The initialiser `defaults = { true, false, true, true }`. -/
def defaults : view_opts :=
  ⟨true, false, true, true⟩

/-- One round of the `getopt` loop of `main` for a view option letter. -/
def setOption (options : view_opts) (c : Char) : view_opts :=
  if c = 'a' then defaults
  else if c = 'l' then { options with live_view := true }
  else if c = 'r' then { options with hardware := true }
  else if c = 's' then { options with system := true }
  else if c = 't' then { options with task_list := true }
  else options

/-- The part of `main` behind `chdir`: the sections produced for the given
options, in output order. -/
def renderViews (options : view_opts) : List Section :=
  (if options.system then [Section.system] else []) ++
  ((if options.hardware then [Section.hardware] else []) ++
  ((if options.task_list then [Section.task] else []) ++
  (if options.live_view = true then [Section.live] else [])))

/-- `main` for a command line whose view option letters are `flags`, in
order (`-h`, unknown options and `-p` with its directory, which `main`
discounts from `argc`, are left out): with no option `argc <= 1` holds and
the defaults are enabled. -/
def main (flags : List Char) : List Section :=
  let options := flags.foldl setOption ⟨false, false, false, false⟩
  let options := if flags = [] then defaults else options
  renderViews options

/-! ## Integer to string -/

/-- The value of an `int` expression whose mathematical value is `x`, on a
two's complement machine of 32 bits. -/
def wrap32 (x : Int) : Int :=
  (x + 2147483648) % 4294967296 - 2147483648

/-- The read `digit[k]` of the array `digit[] = "0123456789"` (ten digits
and the terminating NUL). -/
def digitAt (k : Int) : Except Abort Char :=
  if 0 ≤ k ∧ k ≤ 10 then
    .ok (("0123456789".toList ++ [NUL]).getD k.toNat NUL)
  else .error .outOfBounds

/-- The first loop of `itoa`, `do { ++p; shifter = shifter/10; } while(shifter)`:
the offset `p` behind the loop. -/
def itoa_skip : Nat → Int → Int → Except Abort Int
  | 0, _, _ => .error .unterminated
  | fuel + 1, shifter, p =>
    let p := p + 1
    let shifter := shifter.tdiv 10
    if shifter ≠ 0 then itoa_skip fuel shifter p else .ok p

/-- The second loop of `itoa`, `do { *--p = digit[i%10]; i = i/10; } while(i)`:
the cells of `b` behind the loop. -/
def itoa_fill : Nat → Int → Int → List (Option Char) → Except Abort (List (Option Char))
  | 0, _, _, _ => .error .unterminated
  | fuel + 1, i, p, b => do
    let p := p - 1
    let d ← digitAt (i.tmod 10)
    let b := store b p d
    let i := i.tdiv 10
    if i ≠ 0 then itoa_fill fuel i p b else pure b

/-- `itoa(i, b)`: the cells of `b` after the call.  An `int` has at most ten
decimal digits, so eleven rounds of each loop suffice. -/
def itoa (i : Int) (b : List (Option Char)) : Except Abort (List (Option Char)) := do
  let (p, i, b) :=
    if i < 0 then ((1 : Int), wrap32 (i * -1), store b 0 '-') else ((0 : Int), i, b)
  let shifter := i
  let p ← itoa_skip 11 shifter p
  let b := store b p NUL
  itoa_fill 11 i p b

/-- The string `itoa(i, b)` leaves in an array of `cap` cells. -/
def itoaString (cap : Nat) (i : Int) : Except Abort (List Char) := do
  let b ← itoa i (List.replicate cap none)
  cstr b

/-! ## Reading a file line by line -/

/-- The loop `while(read_line(line, BUF_SZ, fd) != 0) { … }` that several
functions run over a file: `step` is the loop body, applied to the string in
the buffer; the result carries the buffer cells along, since the buffer
outlives the loop.  The first argument bounds the number of rounds. -/
def scanLines {σ : Type} (step : List Char → σ → Except Abort σ) :
    Nat → List (Option Char) → List Char → σ → Except Abort (σ × List (Option Char))
  | 0, _, _, _ => .error .unterminated
  | fuel + 1, line, fd, st =>
    let r := read_line line BUF_SZ fd
    if r.total ≠ 0 then do
      let text ← cstr r.str
      let st ← step text st
      scanLines step fuel r.str r.fd st
    else
      pure (st, r.str)

/-- The lines of a stream as `read_line` delivers them to a loop with a
buffer of `size` cells, `cur` being the bytes of the current line read so
far: a line ends at its newline, which is dropped, or when `size - 1` bytes
are stored, or at the end of the stream, where the last byte is dropped. -/
def deliveredFrom (size : Nat) : List Char → List Char → List (List Char)
  | [], cur => if cur = [] then [] else [cur.dropLast]
  | t :: fd, cur =>
    if cur.length + 3 > size then (cur ++ [t]) :: deliveredFrom size fd []
    else if t = '\n' then cur :: deliveredFrom size fd []
    else deliveredFrom size fd (cur ++ [t])

/-- The strings a loop over `read_line` with a buffer of `BUF_SZ` cells sees
for a stream: the delivered lines, each cut at its first NUL. -/
def deliveredLines (stream : List Char) : List (List Char) :=
  (deliveredFrom BUF_SZ stream []).map (fun l => l.takeWhile (fun c => c ≠ NUL))

/-- The bytes of a stream made of the given lines, each followed by a
newline. -/
def renderLines : List (List Char) → List Char
  | [] => []
  | l :: ls => l ++ '\n' :: renderLines ls

/-! ## CPU information -/

/-- The locals of `parse_cpuinfo` that survive an iteration of its loop. -/
structure CpuState where
  /-- The array `model_name`, initially the empty string. -/
  model_name : List Char
  /-- The counter `proc_count`. -/
  proc_count : Nat
  /-- The flag `found`. -/
  found : Bool
  deriving DecidableEq, Repr

/-- The loop `for(int i = 4; i < leng; i++)` of `parse_cpuinfo`: every token
from index 4 on is appended to `model_name`, followed by a space. -/
def appendTokens (model_name : List Char) : List (List Char) → List Char
  | [] => model_name
  | t :: ts => appendTokens (model_name ++ t ++ [' ']) ts

/-- The body of the loop of `parse_cpuinfo` for one line.  The array `tokens`
is new in every round, so only the slots `tokenize` filled hold a pointer;
`&&` evaluates `tokens[1]` only when `tokens[0]` is `model`. -/
def parse_cpuinfo_line (line : List Char) (st : CpuState) : Except Abort CpuState := do
  let tokens ← tokenizeE line [' ', ':', '\t']
  let t0 ← slot tokens 0
  let isModelName ←
    if t0 = "model".toList then do
      let t1 ← slot tokens 1
      pure (decide (t1 = "name".toList) && !st.found)
    else pure false
  let st :=
    if isModelName then
      { st with found := true, model_name := appendTokens st.model_name (tokens.drop 4) }
    else st
  if t0 = "processor".toList then pure { st with proc_count := st.proc_count + 1 }
  else pure st

/-- `parse_cpuinfo()`: the model name and the number of processing units it
prints, for the given content of the `cpuinfo` file.  A round of the loop
consumes at least one byte, so `length + 1` rounds suffice. -/
def parse_cpuinfo (cpuinfo : List Char) : Except Abort (List Char × Nat) := do
  let (st, _) ← scanLines parse_cpuinfo_line (cpuinfo.length + 1)
    (List.replicate BUF_SZ none) cpuinfo ⟨[], 0, false⟩
  pure (st.model_name, st.proc_count)

/-- The tokens of a line, split on space, colon or tab. -/
def cpuTokens (line : List Char) : List (List Char) :=
  cutAtDelims [' ', ':', '\t'] line

/-- The line has `model` and `name` as its two leading tokens. -/
def isModelNameLine (line : List Char) : Bool :=
  decide ((cpuTokens line)[0]? = some "model".toList ∧ (cpuTokens line)[1]? = some "name".toList)

/-- The line has `processor` as its first token. -/
def isProcessorLine (line : List Char) : Bool :=
  decide ((cpuTokens line)[0]? = some "processor".toList)

/-- Joins tokens, putting one space behind each of them. -/
def spaceTerminated (toks : List (List Char)) : List Char :=
  toks.flatMap (fun t => t ++ [' '])

/-- Joins tokens with single spaces between them. -/
def spaceJoined (toks : List (List Char)) : List Char :=
  (toks.intersperse [' ']).flatten

/-! ## Load average and kernel version -/

/-- The body of the loop of `loadavg` for one line: the text printed so far
grows by `tokens[0]`, `tokens[1]`, `tokens[2]` and a newline. -/
def loadavg_line (line : List Char) (out : List Char) : Except Abort (List Char) := do
  let tokens ← tokenizeE line [' ']
  let t0 ← slot tokens 0
  let t1 ← slot tokens 1
  let t2 ← slot tokens 2
  pure (out ++ t0 ++ t1 ++ t2 ++ ['\n'])

/-- `loadavg()`: the text printed, for the given content of the `loadavg`
file. -/
def loadavg (file : List Char) : Except Abort (List Char) := do
  let (out, _) ← scanLines loadavg_line (file.length + 1) (List.replicate BUF_SZ none) file
    "Load Average (1/5/15 min): ".toList
  pure out

/-- `printkernel()`: the text printed, for the given content of the `version`
file. -/
def printkernel (file : List Char) : Except Abort (List Char) := do
  let r := read_line (List.replicate BUF_SZ none) BUF_SZ file
  let kernel ← cstr r.str
  let smallList ← tokenizeE kernel [' ']
  let v ← slot smallList 2
  pure ("Kernel Version: ".toList ++ v ++ ['\n'])

/-! ## Process table -/

/-- `digits_only(s)`. -/
def digits_only (s : List Char) : Bool :=
  s.all isdigit

/-- A model of the libc `atoi` on decimal input: optional white space,
optional sign, digits; values outside the range of `int` are not covered. -/
def atoiDecimal (nptr : List Char) : Int :=
  let s := nptr.dropWhile isspace
  let (neg, s) :=
    match s with
    | '-' :: r => (true, r)
    | '+' :: r => (false, r)
    | _ => (false, s)
  let (v, _, _) := readDigits s 0 0
  if neg then -(v : Int) else (v : Int)

/-- The call `strcpy(dst, src)` for an array `dst` of `cap` cells: the string
read back from `dst` afterwards, which is the source.  A source that does not
fit with its NUL is written on past the end of the array, into neighbouring
memory that the model does not track; execution goes on. -/
def strcpy (_cap : Nat) (src : List Char) : Except Abort (List Char) :=
  .ok src

/-- The calls `strncpy(dst, src, n); strcat(dst, "\0");` for an array `dst` of
`cap` cells: the string held by `dst` afterwards.  A source of `n` or more
characters leaves the first `n` cells without NUL, and `strcat` then reads
on: into a cell nothing was stored in, or past the end of the array. -/
def strncpy (cap n : Nat) (src : List Char) : Except Abort (List Char) :=
  if src.length < n then .ok src
  else if n < cap then .error .uninitialised
  else .error .outOfBounds

/-- The chain of comparisons on the trimmed state value `t2` in
`num_process`: the new content of `state`. -/
def state_name (t2 state : List Char) : List Char :=
  if t2 = "S (sleeping)".toList then "sleeping".toList
  else if t2 = "I (idle)".toList then "idle".toList
  else if t2 = "A (active)".toList then "active".toList
  else if t2 = "Z (zombie)".toList then "zombie".toList
  else if t2 = "X (dead)".toList then "dead".toList
  else if t2 = "D (disk sleep)".toList then "disk sleep".toList
  else state

/-- The locals of `num_process` that survive a line and a directory entry;
an array is `none` until a string is stored in it. -/
structure ProcState where
  /-- The initialised prefix of the pointer array `words`. -/
  words : List (List Char)
  /-- The array `taskname[26]`. -/
  taskname : Option (List Char)
  /-- The array `user[16]`. -/
  user : Option (List Char)
  /-- The array `task[10]`. -/
  task : Option (List Char)
  /-- The array `state[13]`, initialised to a single space. -/
  state : List Char
  /-- The array `PID[6]`. -/
  PID : Option (List Char)
  deriving DecidableEq, Repr

/-- The body of the inner loop of `num_process` for one line of a status
file.  `atoi` and the owner lookup `getpwuid` (`none` for an unknown id) are
parameters. -/
def num_process_line (atoi : List Char → Int) (getpwuid : Int → Option (List Char))
    (line : List Char) (st : ProcState) : Except Abort ProcState := do
  let toks ← tokenizeE line [':']
  let words := storeTokens st.words toks
  let leng := toks.length
  let w0 ← slot words 0
  let last ← slot words (leng - 1)
  let taskname ←
    if w0 = "Name".toList then (strncpy 26 25 (trimwhitespace last)).map some
    else pure st.taskname
  let state ←
    if w0 = "State".toList then do
      let temp ← strcpy 13 last
      let t2 := trimwhitespace temp
      pure (state_name t2 st.state)
    else pure st.state
  let PID ←
    if w0 = "Pid".toList then (strncpy 6 6 (trimwhitespace last)).map some
    else pure st.PID
  let user ←
    if w0 = "Uid".toList then
      match getpwuid (atoi last) with
      | none => (itoaString 16 (atoi last)).map some
      | some pw_name => (strncpy 16 15 (trimwhitespace pw_name)).map some
    else pure st.user
  let task ←
    if w0 = "Threads".toList then (strncpy 10 9 (trimwhitespace last)).map some
    else pure st.task
  pure ⟨words, taskname, user, task, state, PID⟩

/-- A row of the process table, as passed to `printf`. -/
structure Row where
  /-- The column `PID`. -/
  PID : List Char
  /-- The column `State`. -/
  state : List Char
  /-- The column `Task Name`. -/
  taskname : List Char
  /-- The column `User`. -/
  user : List Char
  /-- The column `Tasks`. -/
  task : List Char
  deriving DecidableEq, Repr

/-- The read of a character array as a string. -/
def held (arr : Option (List Char)) : Except Abort (List Char) :=
  match arr with
  | some s => .ok s
  | none => .error .uninitialised

/-- The loop `while ((dir = readdir(d)) != NULL)` of `num_process` over the
names of the directory entries: the rows printed.  `status name` is the
content of the file `name`, empty when it cannot be opened. -/
def num_process_loop (atoi : List Char → Int) (getpwuid : Int → Option (List Char))
    (status : List Char → List Char) :
    List (List Char) → List (Option Char) → ProcState → List Row → Except Abort (List Row)
  | [], _, _, rows => pure rows
  | d_name :: rest, line, st, rows => do
    let (st, line) ←
      if digits_only d_name then
        scanLines (num_process_line atoi getpwuid)
          ((status (d_name ++ "/status".toList)).length + 1) line
          (status (d_name ++ "/status".toList)) st
      else pure (st, line)
    let PID ← held st.PID
    let rows ←
      if PID ≠ [] then do
        let taskname ← held st.taskname
        let user ← held st.user
        let task ← held st.task
        pure (rows ++ [⟨PID, st.state, taskname, user, task⟩])
      else pure rows
    num_process_loop atoi getpwuid status rest line st rows

/-- `num_process()`: the rows printed under the table header, for the given
directory listing. -/
def num_process (atoi : List Char → Int) (getpwuid : Int → Option (List Char))
    (status : List Char → List Char) (listing : List (List Char)) : Except Abort (List Row) :=
  num_process_loop atoi getpwuid status listing (List.replicate BUF_SZ none)
    ⟨[], none, none, none, [' '], none⟩ []

/-- A password database that knows the owner `root` of id 0 only. -/
def rootOnly (uid : Int) : Option (List Char) :=
  if uid = 0 then some "root".toList else none

/-- A file system with the status file of process 1. -/
def statusOfInit (name : List Char) : List Char :=
  if name = "1/status".toList then
    "Name:\tinit\nState:\tR (running)\nPid:\t1\nUid:\t0\t0\t0\t0\nThreads:\t1\n".toList
  else if name = "2/status".toList then
    "Name:\tkthreadd\nState:\tI (idle)\nUid:\t7\t7\t7\t7\nThreads:\t3\n".toList
  else []

/-- Applies a loop body to the given lines in order. -/
def runSteps {σ : Type} (step : List Char → σ → Except Abort σ) :
    List (List Char) → σ → Except Abort σ
  | [], st => .ok st
  | l :: ls, st =>
    match step l st with
    | .ok st2 => runSteps step ls st2
    | .error e => .error e

/-- A line that `read_line` delivers whole from a buffer of `BUF_SZ` cells: no
newline and no NUL inside, and at least three cells left over. -/
def LineFits (l : List Char) : Prop :=
  (∀ c ∈ l, c ≠ '\n' ∧ c ≠ NUL) ∧ l.length + 3 ≤ BUF_SZ

/-- Whether a line fits can be checked. -/
instance decLineFits (l : List Char) : Decidable (LineFits l) := by
  unfold LineFits
  infer_instance

/-- The model name taken from the first line whose two leading tokens are
`model` and `name`: its tokens from index 4 on, each followed by a space;
empty when there is no such line. -/
def modelNameOf (lines : List (List Char)) : List Char :=
  match lines.find? isModelNameLine with
  | some l => spaceTerminated ((cpuTokens l).drop 4)
  | none => []

/-- The effect of one line on the locals of `parse_cpuinfo`, in terms of the
tokens of the line. -/
def cpuStep (st : CpuState) (l : List Char) : CpuState :=
  let st1 : CpuState :=
    if isModelNameLine l && !st.found then
      { st with found := true, model_name := appendTokens st.model_name ((cpuTokens l).drop 4) }
    else st
  if isProcessorLine l then { st1 with proc_count := st1.proc_count + 1 } else st1

/-! ## Decimal representation -/

/-- The decimal digits of a natural number, most significant first, without
leading zeros; the single digit `0` for zero. -/
def decimalDigits (n : Nat) : List Char :=
  if n = 0 then ['0'] else (Nat.digits 10 n).reverse.map (fun d => Char.ofNat (48 + d))

/-- The decimal representation of an integer: a leading `-` for a negative
number, then the digits of its absolute value. -/
def decimal (i : Int) : List Char :=
  if i < 0 then '-' :: decimalDigits i.natAbs else decimalDigits i.natAbs

end Inspector

namespace Inspector

/-! ## Tokenizer: proofs -/

theorem strcspn_le (D : List Char) (s : List Char) : strcspn s D ≤ s.length := by
  induction s with
  | nil => simp [strcspn]
  | cons c cs ih =>
    unfold strcspn
    split
    · simp
    · simpa using ih

theorem cutAtDelims_ne_nil (D : List Char) (s : List Char) : cutAtDelims D s ≠ [] := by
  cases s with
  | nil => simp [cutAtDelims]
  | cons c cs =>
    unfold cutAtDelims
    split
    · simp
    · split <;> simp

/-- A string without delimiter is a single segment. -/
theorem cutAtDelims_of_strcspn_eq (D : List Char) (s : List Char)
    (h : strcspn s D = s.length) : cutAtDelims D s = [s] := by
  induction s with
  | nil => simp [cutAtDelims]
  | cons c cs ih =>
    unfold strcspn at h
    split at h
    · simp at h
    · rename_i hc
      have h2 : strcspn cs D = cs.length := by simpa using h
      simp [cutAtDelims, hc, ih h2]

/-- A string with a delimiter at index `strcspn s D` is cut there. -/
theorem cutAtDelims_of_strcspn_lt (D : List Char) (s : List Char)
    (h : strcspn s D < s.length) :
    cutAtDelims D s = s.take (strcspn s D) :: cutAtDelims D (s.drop (strcspn s D + 1)) := by
  induction s with
  | nil => simp at h
  | cons c cs ih =>
    by_cases hc : c ∈ D
    · simp [strcspn, cutAtDelims, hc]
    · have h2 : strcspn cs D < cs.length := by simpa [strcspn, hc] using h
      simp [strcspn, cutAtDelims, hc, ih h2]

/-- With a budget above the string length the loop of `tokenize` stores the
tokens of the specification after those already stored. -/
theorem tokenizeLoop_eq (D : List Char) :
    ∀ (fuel : Nat) (acc : List (List Char)) (s : List Char), s.length < fuel →
      tokenizeLoop fuel acc s D = some (acc ++ cutAtDelims D s) := by
  intro fuel
  induction fuel with
  | zero => intro acc s h; simp at h
  | succ fuel ih =>
    intro acc s h
    unfold tokenizeLoop
    simp only [get_index]
    by_cases hn : strcspn s D = s.length
    · simp [hn, cutAtDelims_of_strcspn_eq D s hn]
    · have hlt : strcspn s D < s.length := lt_of_le_of_ne (strcspn_le D s) hn
      simp only [ne_eq, hn, not_false_eq_true, if_true]
      rw [ih, cutAtDelims_of_strcspn_lt D s hlt]
      · simp
      · simp only [List.length_drop]; omega

theorem tokenize_eq (s D : List Char) : tokenize s D = some (cutAtDelims D s) := by
  simpa [tokenize] using tokenizeLoop_eq D (s.length + 1) [] s (Nat.lt_succ_self _)

/-- Cutting a string that ends in a delimiter leaves an empty last segment. -/
theorem cutAtDelims_append_delim (D : List Char) (d : Char) (hd : d ∈ D) (s : List Char) :
    cutAtDelims D (s ++ [d]) = cutAtDelims D s ++ [[]] := by
  induction s with
  | nil => simp [cutAtDelims, hd]
  | cons c cs ih =>
    have hne := cutAtDelims_ne_nil D cs
    cases hcut : cutAtDelims D cs with
    | nil => exact absurd hcut hne
    | cons x xs =>
      rw [hcut] at ih
      simp only [List.cons_append, cutAtDelims, ih, hcut]
      split <;> simp [ih]

/-- The specification function agrees with the library splitter. -/
theorem cutAtDelims_eq_splitOnP (D : List Char) (s : List Char) :
    cutAtDelims D s = s.splitOnP (fun c => decide (c ∈ D)) := by
  induction s with
  | nil => simp [cutAtDelims]
  | cons c cs ih =>
    rw [List.splitOnP_cons, cutAtDelims, ih]
    have hne := List.splitOnP_ne_nil (fun c => decide (c ∈ D)) cs
    cases hcut : cs.splitOnP (fun c => decide (c ∈ D)) with
    | nil => exact absurd hcut hne
    | cons x xs => by_cases hc : c ∈ D <;> simp [hc]

/-- A string none of whose characters is a delimiter is one segment. -/
theorem cutAtDelims_no_delim (D : List Char) (s : List Char) (h : ∀ c ∈ s, c ∉ D) :
    cutAtDelims D s = [s] := by
  induction s with
  | nil => simp [cutAtDelims]
  | cons c cs ih =>
    have hc : c ∉ D := h c (List.mem_cons_self _ _)
    have hcs : ∀ x ∈ cs, x ∉ D := fun x hx => h x (List.mem_cons_of_mem _ hx)
    simp [cutAtDelims, hc, ih hcs]

/-- The first delimiter of a string ends its first segment. -/
theorem cutAtDelims_append_cons (D : List Char) (k v : List Char) (d : Char)
    (hk : ∀ c ∈ k, c ∉ D) (hd : d ∈ D) :
    cutAtDelims D (k ++ d :: v) = k :: cutAtDelims D v := by
  induction k with
  | nil => simp [cutAtDelims, hd]
  | cons c cs ih =>
    have hc : c ∉ D := hk c (List.mem_cons_self _ _)
    have hcs : ∀ x ∈ cs, x ∉ D := fun x hx => hk x (List.mem_cons_of_mem _ hx)
    simp [cutAtDelims, hc, ih hcs]

/-- C1: `tokenize(s, D)` returns, in order, exactly the segments obtained by
cutting `s` at every character that belongs to `D` (any-of semantics): empty
segments and the remainder after the last delimiter are kept, a line without
delimiter gives `[s]`, a line ending in a delimiter ends with an empty field;
`"a:b:c"` on `":"` gives `["a","b","c"]` and `"a::b"` gives `["a","","b"]`. -/
theorem tokenize_cuts_at_every_delimiter :
    (∀ s D : List Char, tokenize s D = some (cutAtDelims D s)) ∧
    (∀ s D : List Char, tokenize s D = some (s.splitOnP (fun c => decide (c ∈ D)))) ∧
    (∀ s D : List Char, (∀ c ∈ s, c ∉ D) → tokenize s D = some [s]) ∧
    (∀ (s D : List Char) (d : Char), d ∈ D →
      ∃ toks, tokenize s D = some toks ∧ tokenize (s ++ [d]) D = some (toks ++ [[]])) ∧
    tokenize "a:b:c".toList ":".toList = some ["a".toList, "b".toList, "c".toList] ∧
    tokenize "a::b".toList ":".toList = some ["a".toList, "".toList, "b".toList] ∧
    tokenize "a b:c".toList " :\t".toList = some ["a".toList, "b".toList, "c".toList] ∧
    tokenize "a:b:".toList ":".toList = some ["a".toList, "b".toList, "".toList] := by
  refine ⟨tokenize_eq, ?_, ?_, ?_, by decide, by decide, by decide, by decide⟩
  · intro s D
    rw [tokenize_eq, cutAtDelims_eq_splitOnP]
  · intro s D h
    rw [tokenize_eq, cutAtDelims_no_delim D s h]
  · intro s D d hd
    exact ⟨cutAtDelims D s, tokenize_eq s D, by
      rw [tokenize_eq, cutAtDelims_append_delim D d hd]⟩

/-- C2 as stated fails: on the empty line `tokenize` does not return an empty
sequence; it returns one (empty) field and the count `1`. -/
theorem tokenize_empty_line_refutes_empty_sequence :
    tokenize [] ":".toList ≠ some [] ∧ tokenizeCount [] ":".toList = some 1 := by
  decide

/-- C2 (amended): for an empty input line and every delimiter set, `tokenize`
returns the one-element sequence holding the empty string (field count 1). -/
theorem tokenize_empty_line_one_field (D : List Char) :
    tokenize [] D = some [[]] ∧ tokenizeCount [] D = some 1 := by
  simp [tokenizeCount, tokenize_eq, cutAtDelims]

/-! ## Line reader: proofs -/

/-- The counter of `read_line` never decreases, and a delivered byte
increases it. -/
theorem read_line_loop_total (size : Nat) :
    ∀ (fd : List Char) (total : Int) (str : List (Option Char)) (w : List Int),
      total ≤ (read_line_loop size fd total str w).total ∧
      (fd ≠ [] → total + 1 ≤ (read_line_loop size fd total str w).total) := by
  intro fd
  induction fd with
  | nil => intro total str w; simp [read_line_loop]
  | cons t fd ih =>
    intro total str w
    simp only [read_line_loop]
    split
    · simp
    · split
      · simp
      · have h := (ih (total + 1) (store str total t) (w ++ [total])).1
        constructor
        · omega
        · intro _; exact h

/-- C3: for every stream and every buffer size of at least 2, `read_line`
returns 0 if and only if the stream has no bytes left; whenever at least one
byte remains it returns a positive length. -/
theorem read_line_zero_iff_end_of_stream (str : List (Option Char)) (size : Nat)
    (fd : List Char) (_hsize : 2 ≤ size) :
    ((read_line str size fd).total = 0 ↔ fd = []) ∧
    (fd ≠ [] → 0 < (read_line str size fd).total) := by
  have h := read_line_loop_total size fd 0 str []
  have hpos : fd ≠ [] → 0 < (read_line str size fd).total := by
    intro hne
    have := h.2 hne
    simp only [read_line]
    omega
  refine ⟨⟨?_, ?_⟩, hpos⟩
  · intro h0
    by_contra hne
    have := hpos hne
    omega
  · intro hnil
    subst hnil
    simp [read_line, read_line_loop]

/-- Witness for C3: a 1024-byte buffer on the empty stream and on a stream
that still holds a line. -/
theorem read_line_zero_iff_end_of_stream_witness :
    2 ≤ BUF_SZ ∧
    (read_line (List.replicate BUF_SZ none) BUF_SZ []).total = 0 ∧
    ((read_line (List.replicate BUF_SZ none) BUF_SZ "4.15 0.2\n".toList).total = 0 ↔
      "4.15 0.2\n".toList = []) ∧
    0 < (read_line (List.replicate BUF_SZ none) BUF_SZ "4.15 0.2\n".toList).total :=
  ⟨by decide,
   ((read_line_zero_iff_end_of_stream (List.replicate BUF_SZ none) BUF_SZ []
      (by decide)).1).2 rfl,
   (read_line_zero_iff_end_of_stream (List.replicate BUF_SZ none) BUF_SZ
      "4.15 0.2\n".toList (by decide)).1,
   (read_line_zero_iff_end_of_stream (List.replicate BUF_SZ none) BUF_SZ
      "4.15 0.2\n".toList (by decide)).2 (by decide)⟩

/-- A store just behind an initialised prefix extends the prefix. -/
theorem store_at_prefix (pre : List Char) (x : Option Char) (tail : List (Option Char))
    (c : Char) :
    store (pre.map some ++ x :: tail) (pre.length : Int) c =
      (pre ++ [c]).map some ++ tail := by
  have h : (pre.map some).length ≤ pre.length := by simp
  simp [store, List.set_append_right _ _ h]

/-- A store on the last cell of an initialised prefix replaces that cell. -/
theorem store_at_last (pre : List Char) (b : Char) (tail : List (Option Char)) (c : Char) :
    store ((pre ++ [b]).map some ++ tail) ((pre.length : Int) + 1 - 1) c =
      pre.map some ++ some c :: tail := by
  have h : (pre.map some).length ≤ pre.length := by simp
  have e : (pre.length : Int) + 1 - 1 = (pre.length : Int) := by omega
  rw [e]
  simp [store, List.set_append_right _ _ h]

/-- The string held by cells that start with `pre` followed by a NUL. -/
theorem cstr_prefix (pre : List Char) (tail : List (Option Char)) (h : ∀ c ∈ pre, c ≠ NUL) :
    cstr (pre.map some ++ some NUL :: tail) = .ok pre := by
  induction pre with
  | nil => simp [cstr]
  | cons c cs ih =>
    have hc : c ≠ NUL := h c (List.mem_cons_self _ _)
    have hcs : ∀ x ∈ cs, x ≠ NUL := fun x hx => h x (List.mem_cons_of_mem _ hx)
    simp [cstr, hc, ih hcs, Except.map]

/-- The loop of `read_line` on a line that ends in a newline and leaves at
least two cells of the buffer unused: the text is stored behind what is
already there, the newline is replaced by NUL, and the rest of the stream is
left unread. -/
theorem read_line_loop_short_line (size : Nat) (rest : List Char) :
    ∀ (line pre : List Char) (tail : List (Option Char)) (w : List Int),
      (∀ c ∈ line, c ≠ '\n') →
      pre.length + line.length + 3 ≤ size →
      line.length + 1 ≤ tail.length →
      (read_line_loop size (line ++ '\n' :: rest) (pre.length : Int)
          (pre.map some ++ tail) w).total = ((pre.length + line.length + 1 : Nat) : Int) ∧
      (read_line_loop size (line ++ '\n' :: rest) (pre.length : Int)
          (pre.map some ++ tail) w).fd = rest ∧
      (read_line_loop size (line ++ '\n' :: rest) (pre.length : Int)
          (pre.map some ++ tail) w).str =
        (pre ++ line).map some ++ some NUL :: tail.drop (line.length + 1) := by
  intro line
  induction line with
  | nil =>
    intro pre tail w _ hsz htl
    cases tail with
    | nil => simp at htl
    | cons x tail =>
      have hg : ¬ ((pre.length : Int) + 1 + 2 > (size : Int)) := by
        simp only [List.length_nil] at hsz; omega
      simp only [List.nil_append, read_line_loop, hg, if_false, if_true, store_at_prefix,
        store_at_last]
      simp
  | cons c line ih =>
    intro pre tail w hnl hsz htl
    cases tail with
    | nil => simp at htl
    | cons x tail =>
      have hc : c ≠ '\n' := hnl c (List.mem_cons_self _ _)
      have hline : ∀ y ∈ line, y ≠ '\n' := fun y hy => hnl y (List.mem_cons_of_mem _ hy)
      have hg : ¬ ((pre.length : Int) + 1 + 2 > (size : Int)) := by
        simp only [List.length_cons] at hsz; omega
      have hlen : ((pre.length : Int) + 1) = (((pre ++ [c]).length : Nat) : Int) := by simp
      simp only [List.cons_append, read_line_loop, hg, if_false, hc, store_at_prefix]
      rw [hlen]
      have hsz2 : (pre ++ [c]).length + line.length + 3 ≤ size := by
        simp only [List.length_append, List.length_cons, List.length_nil] at hsz ⊢; omega
      have htl2 : line.length + 1 ≤ tail.length := by
        simp only [List.length_cons] at htl; omega
      obtain ⟨h1, h2, h3⟩ := ih (pre ++ [c]) tail (w ++ [(pre.length : Int)]) hline hsz2 htl2
      refine ⟨h1.trans ?_, h2, h3.trans ?_⟩
      · simp only [List.length_append, List.length_cons, List.length_nil]; omega
      · simp

/-- The effect of `read_line` on a stream whose next line ends in a newline,
contains no NUL and is at least three bytes shorter than the buffer: the
buffer holds exactly the text of the line, the call returns its length plus
one, and the stream is left behind the newline. -/
theorem read_line_short_line (str : List (Option Char)) (size : Nat) (line rest : List Char)
    (hnl : ∀ c ∈ line, c ≠ '\n') (hnul : ∀ c ∈ line, c ≠ NUL)
    (hsz : line.length + 3 ≤ size) (hstr : str.length = size) :
    (read_line str size (line ++ '\n' :: rest)).total = ((line.length + 1 : Nat) : Int) ∧
    (read_line str size (line ++ '\n' :: rest)).fd = rest ∧
    cstr (read_line str size (line ++ '\n' :: rest)).str = .ok line ∧
    (read_line str size (line ++ '\n' :: rest)).str.length = size := by
  have h := read_line_loop_short_line size rest line [] str [] hnl
    (by simpa using hsz) (by omega)
  simp only [List.length_nil, List.map_nil, List.nil_append, Nat.zero_add, Nat.cast_zero] at h
  obtain ⟨h1, h2, h3⟩ := h
  refine ⟨h1, h2, ?_, ?_⟩
  · simp only [read_line]; rw [h3]; exact cstr_prefix line _ hnul
  · simp only [read_line]; rw [h3]
    simp only [List.length_append, List.length_map, List.length_cons, List.length_drop]
    omega

/-- Once a byte has been delivered, or while one is still to come, every
offset written by the loop of `read_line` lies inside the buffer. -/
theorem read_line_loop_writes_in_bounds (size : Nat) :
    ∀ (fd : List Char) (total : Int) (str : List (Option Char)) (w : List Int),
      0 ≤ total → total + 2 ≤ (size : Int) →
      (∀ i ∈ w, 0 ≤ i ∧ i < (size : Int)) →
      (fd = [] → 1 ≤ total) →
      ∀ i ∈ (read_line_loop size fd total str w).writes, 0 ≤ i ∧ i < (size : Int) := by
  intro fd
  induction fd with
  | nil =>
    intro total str w h0 hsz hw hne i hi
    have h1 := hne rfl
    simp only [read_line_loop, List.mem_append, List.mem_singleton] at hi
    rcases hi with hi | hi
    · exact hw i hi
    · subst hi; omega
  | cons t fd ih =>
    intro total str w h0 hsz hw _ i hi
    have hw2 : ∀ j ∈ w ++ [total], 0 ≤ j ∧ j < (size : Int) := by
      intro j hj
      simp only [List.mem_append, List.mem_singleton] at hj
      rcases hj with hj | hj
      · exact hw j hj
      · subst hj; omega
    simp only [read_line_loop] at hi
    split at hi
    · simp only [List.mem_append, List.mem_singleton] at hi
      rcases hi with hi | hi
      · exact hw2 i (by simpa using hi)
      · subst hi; omega
    · split at hi
      · simp only [List.mem_append, List.mem_singleton] at hi
        rcases hi with hi | hi
        · exact hw2 i (by simpa using hi)
        · subst hi; omega
      · rename_i hg _
        exact ih (total + 1) _ _ (by omega) (by omega) hw2 (fun _ => by omega) i hi

/-- For a buffer of at least two cells and a stream that still holds a byte,
`read_line` writes only inside the buffer. -/
theorem read_line_writes_in_bounds (str : List (Option Char)) (size : Nat) (fd : List Char)
    (hsize : 2 ≤ size) (hfd : fd ≠ []) :
    ∀ i ∈ (read_line str size fd).writes, 0 ≤ i ∧ i < (size : Int) :=
  read_line_loop_writes_in_bounds size fd 0 str [] (le_refl _) (by omega)
    (by simp) (fun h => absurd h hfd)

/-- The loop of `read_line` on a newline-terminated line that leaves exactly
one cell of the buffer unused: the size check fires on the newline itself,
before the test for the newline, so the newline stays in the buffer. -/
theorem read_line_loop_line_at_capacity (size : Nat) (rest : List Char) :
    ∀ (line pre : List Char) (tail : List (Option Char)) (w : List Int),
      (∀ c ∈ line, c ≠ '\n') →
      pre.length + line.length + 2 = size →
      line.length + 2 ≤ tail.length →
      (read_line_loop size (line ++ '\n' :: rest) (pre.length : Int)
          (pre.map some ++ tail) w).total = ((pre.length + line.length + 1 : Nat) : Int) ∧
      (read_line_loop size (line ++ '\n' :: rest) (pre.length : Int)
          (pre.map some ++ tail) w).str =
        (pre ++ line ++ ['\n']).map some ++ some NUL :: tail.drop (line.length + 2) := by
  intro line
  induction line with
  | nil =>
    intro pre tail w _ hsz htl
    match tail, htl with
    | x :: y :: tail, _ =>
      have hg : (pre.length : Int) + 1 + 2 > (size : Int) := by
        simp only [List.length_nil] at hsz; omega
      have hlen : ((pre.length : Int) + 1) = (((pre ++ ['\n']).length : Nat) : Int) := by simp
      simp only [List.nil_append, read_line_loop, hg, if_true, store_at_prefix]
      rw [hlen, store_at_prefix]
      simp
  | cons c line ih =>
    intro pre tail w hnl hsz htl
    cases tail with
    | nil => simp at htl
    | cons x tail =>
      have hc : c ≠ '\n' := hnl c (List.mem_cons_self _ _)
      have hline : ∀ y ∈ line, y ≠ '\n' := fun y hy => hnl y (List.mem_cons_of_mem _ hy)
      have hg : ¬ ((pre.length : Int) + 1 + 2 > (size : Int)) := by
        simp only [List.length_cons] at hsz; omega
      have hlen : ((pre.length : Int) + 1) = (((pre ++ [c]).length : Nat) : Int) := by simp
      simp only [List.cons_append, read_line_loop, hg, if_false, hc, store_at_prefix]
      rw [hlen]
      have hsz2 : (pre ++ [c]).length + line.length + 2 = size := by
        simp only [List.length_append, List.length_cons, List.length_nil] at hsz ⊢; omega
      have htl2 : line.length + 2 ≤ tail.length := by
        simp only [List.length_cons] at htl; omega
      obtain ⟨h1, h3⟩ := ih (pre ++ [c]) tail (w ++ [(pre.length : Int)]) hline hsz2 htl2
      refine ⟨h1.trans ?_, h3.trans ?_⟩
      · simp only [List.length_append, List.length_cons, List.length_nil]; omega
      · simp

/-- A newline-terminated line of exactly `size - 2` characters comes back from
`read_line` with its newline. -/
theorem read_line_line_at_capacity (str : List (Option Char)) (size : Nat)
    (line rest : List Char)
    (hnl : ∀ c ∈ line, c ≠ '\n') (hnul : ∀ c ∈ line, c ≠ NUL)
    (hsz : line.length + 2 = size) (hstr : str.length = size) :
    (read_line str size (line ++ '\n' :: rest)).total = ((line.length + 1 : Nat) : Int) ∧
    cstr (read_line str size (line ++ '\n' :: rest)).str = .ok (line ++ ['\n']) := by
  have h := read_line_loop_line_at_capacity size rest line [] str [] hnl
    (by simpa using hsz) (by omega)
  simp only [List.length_nil, List.map_nil, List.nil_append, Nat.zero_add, Nat.cast_zero] at h
  obtain ⟨h1, h3⟩ := h
  refine ⟨h1, ?_⟩
  simp only [read_line]; rw [h3]
  refine cstr_prefix (line ++ ['\n']) _ ?_
  intro c hc
  simp only [List.mem_append, List.mem_singleton] at hc
  rcases hc with hc | hc
  · exact hnul c hc
  · subst hc; decide

/-- C4 fails on the code: a newline-terminated line of `BUF_SZ - 2` characters
fits in the buffer of `BUF_SZ` cells together with its terminator, yet the
string `read_line` leaves in the buffer still ends in the newline. -/
theorem read_line_keeps_newline_at_capacity :
    (List.replicate 1022 'a' ++ ['\n']).length + 1 ≤ BUF_SZ ∧
    cstr (read_line (List.replicate BUF_SZ none) BUF_SZ
      (List.replicate 1022 'a' ++ ['\n'])).str = .ok (List.replicate 1022 'a' ++ ['\n']) ∧
    cstr (read_line (List.replicate 3 none) 3 "a\n".toList).str = .ok "a\n".toList := by
  refine ⟨by rw [List.length_append, List.length_replicate]; decide, ?_, by decide⟩
  refine (read_line_line_at_capacity _ BUF_SZ (List.replicate 1022 'a') [] ?_ ?_ ?_ ?_).2
  · intro c hc
    rw [List.eq_of_mem_replicate hc]; decide
  · intro c hc
    rw [List.eq_of_mem_replicate hc]; decide
  · rw [List.length_replicate]; decide
  · rw [List.length_replicate]

/-- The loop of `read_line` on a final record without newline that leaves at
least two cells unused: the loop ends at end of stream and the store after
the loop replaces the last character read by NUL. -/
theorem read_line_loop_final_record (size : Nat) :
    ∀ (record pre : List Char) (tail : List (Option Char)) (w : List Int),
      (∀ c ∈ record, c ≠ '\n') →
      pre.length + record.length + 2 ≤ size →
      record.length ≤ tail.length →
      pre ++ record ≠ [] →
      (read_line_loop size record (pre.length : Int) (pre.map some ++ tail) w).total =
        ((pre.length + record.length : Nat) : Int) ∧
      (read_line_loop size record (pre.length : Int) (pre.map some ++ tail) w).str =
        (pre ++ record).dropLast.map some ++ some NUL :: tail.drop record.length := by
  intro record
  induction record with
  | nil =>
    intro pre tail w _ _ _ hne
    rw [List.append_nil] at hne
    obtain ⟨p, b, rfl⟩ : ∃ p b, pre = p ++ [b] :=
      ⟨pre.dropLast, pre.getLast hne, (List.dropLast_append_getLast hne).symm⟩
    have hlen : (((p ++ [b]).length : Nat) : Int) = (p.length : Int) + 1 := by simp
    simp only [read_line_loop, hlen, store_at_last]
    simp
  | cons c record ih =>
    intro pre tail w hnl hsz htl _
    cases tail with
    | nil => simp at htl
    | cons x tail =>
      have hc : c ≠ '\n' := hnl c (List.mem_cons_self _ _)
      have hrec : ∀ y ∈ record, y ≠ '\n' := fun y hy => hnl y (List.mem_cons_of_mem _ hy)
      have hg : ¬ ((pre.length : Int) + 1 + 2 > (size : Int)) := by
        simp only [List.length_cons] at hsz; omega
      have hlen : ((pre.length : Int) + 1) = (((pre ++ [c]).length : Nat) : Int) := by simp
      simp only [read_line_loop, hg, if_false, hc, store_at_prefix]
      rw [hlen]
      have hsz2 : (pre ++ [c]).length + record.length + 2 ≤ size := by
        simp only [List.length_append, List.length_cons, List.length_nil] at hsz ⊢; omega
      have htl2 : record.length ≤ tail.length := by
        simp only [List.length_cons] at htl; omega
      obtain ⟨h1, h3⟩ := ih (pre ++ [c]) tail (w ++ [(pre.length : Int)]) hrec hsz2 htl2
        (by simp)
      refine ⟨h1.trans ?_, h3.trans ?_⟩
      · simp only [List.length_append, List.length_cons, List.length_nil]; omega
      · simp

/-- A non-empty final record without newline comes back from `read_line`
without its last character, while its full length is returned. -/
theorem read_line_final_record (str : List (Option Char)) (size : Nat) (record : List Char)
    (hne : record ≠ []) (hnl : ∀ c ∈ record, c ≠ '\n') (hnul : ∀ c ∈ record, c ≠ NUL)
    (hsz : record.length + 2 ≤ size) (hstr : str.length = size) :
    (read_line str size record).total = (record.length : Int) ∧
    cstr (read_line str size record).str = .ok record.dropLast := by
  have h := read_line_loop_final_record size record [] str [] hnl
    (by simpa using hsz) (by omega) (by simpa using hne)
  simp only [List.length_nil, List.map_nil, List.nil_append, Nat.zero_add, Nat.cast_zero] at h
  obtain ⟨h1, h3⟩ := h
  refine ⟨h1, ?_⟩
  simp only [read_line]; rw [h3]
  exact cstr_prefix _ _ (fun c hc => hnul c (List.mem_of_mem_dropLast hc))

/-- The value returned by `read_line` stays below the buffer size, so the
`int` counter cannot overflow for a size that fits an `int`. -/
theorem read_line_loop_total_lt_size (size : Nat) :
    ∀ (fd : List Char) (total : Int) (str : List (Option Char)) (w : List Int),
      total + 2 ≤ (size : Int) →
      (read_line_loop size fd total str w).total < (size : Int) := by
  intro fd
  induction fd with
  | nil => intro total str w h; simp only [read_line_loop]; omega
  | cons t fd ih =>
    intro total str w h
    simp only [read_line_loop]
    split
    · show total + 1 < (size : Int)
      omega
    · split
      · show total + 1 < (size : Int)
        omega
      · exact ih _ _ _ (by omega)

/-- C5 fails on the code: the last character of a final record that is not
terminated by a newline is overwritten by the terminating NUL. -/
theorem read_line_drops_last_char_without_newline :
    (read_line (List.replicate BUF_SZ none) BUF_SZ "0.52 0.58 0.59".toList).total = 14 ∧
    cstr (read_line (List.replicate BUF_SZ none) BUF_SZ "0.52 0.58 0.59".toList).str =
      .ok "0.52 0.58 0.5".toList := by
  decide!

/-- C6 fails on the code: at end of stream `read_line` stores the NUL at
offset `-1`, in front of the destination buffer. -/
theorem read_line_writes_before_buffer_at_eof :
    (read_line (List.replicate BUF_SZ none) BUF_SZ []).writes = [-1] ∧
    ¬ (∀ i ∈ (read_line (List.replicate BUF_SZ none) BUF_SZ []).writes,
        0 ≤ i ∧ i < (BUF_SZ : Int)) := by
  decide

/-! ## CPU usage: evaluation -/

/-- What `cpu_usage` computes from the two sampled pairs (total, idle): one
minus the growth of the total divided by the growth of the idle time, and
zero when the idle time did not grow. -/
theorem cpu_usage_of_samples (atof : List Char → ℚ) (uptime1 uptime2 : List Char)
    (total1 idle1 total2 idle2 : ℚ)
    (h1 : get_uptime atof uptime1 = .ok (total1, idle1))
    (h2 : get_uptime atof uptime2 = .ok (total2, idle2)) :
    cpu_usage atof uptime1 uptime2 =
      .ok (if idle2 - idle1 = 0 then 0 else 1 - (total2 - total1) / (idle2 - idle1)) := by
  simp [cpu_usage, h1, h2, cpu_time, bind, Except.bind, pure, Except.pure]

/-- C7 fails on the code: with the first field of the uptime line as total
seconds and the second as idle seconds, `cpu_usage` divides the growth of the
total by the growth of the idle time, and tests the idle growth for zero.  On
the samples (100, 50) and (102, 51) it returns `-1`, not `1 - 1/2`; on
(100, 50) and (100, 51), where the totals are equal, it returns `1`, not `0`. -/
theorem cpu_usage_divides_total_growth_by_idle_growth :
    get_uptime atofDecimal "100.00 50.00\n".toList = .ok (100, 50) ∧
    get_uptime atofDecimal "102.00 51.00\n".toList = .ok (102, 51) ∧
    cpu_usage atofDecimal "100.00 50.00\n".toList "102.00 51.00\n".toList = .ok (-1) ∧
    cpu_usage atofDecimal "100.00 50.00\n".toList "102.00 51.00\n".toList ≠
      .ok (1 - (51 - 50) / (102 - 100)) ∧
    cpu_usage atofDecimal "100.00 50.00\n".toList "100.00 51.00\n".toList = .ok 1 := by
  decide!

/-- C8 fails on the code: on the samples (10, 4) and (14, 5), where the idle
time grows by 1 and the total by 4, `cpu_usage` returns `-3`, outside the
interval from 0 to 1. -/
theorem cpu_usage_leaves_unit_interval :
    ((4 : ℚ) ≤ 5 ∧ (10 : ℚ) < 14 ∧ (5 : ℚ) - 4 ≤ 14 - 10) ∧
    cpu_usage atofDecimal "10.00 4.00\n".toList "14.00 5.00\n".toList = .ok (-3) ∧
    ¬ ((0 : ℚ) ≤ -3 ∧ (-3 : ℚ) ≤ 1) := by
  decide!

/-! ## Memory usage: proofs -/

/-- The loop body of `mem_usage` on a `Key: value` line. -/
theorem mem_usage_line_entry (atof : List Char → ℚ) (e : List Char × List Char)
    (st : MemState) (he : MeminfoEntry e) :
    mem_usage_line atof (e.1 ++ ':' :: e.2) st =
      .ok ⟨storeTokens st.listTotal [e.1, e.2],
        if trimwhitespace e.1 = "MemTotal".toList then some (atof e.2) else st.totalmem,
        if trimwhitespace e.1 = "MemFree".toList then some (atof e.2) else st.freemem⟩ := by
  have hk : ∀ c ∈ e.1, c ∉ [':'] := fun c hc => by simpa using (he.1 c hc).1
  have hv : ∀ c ∈ e.2, c ∉ [':'] := fun c hc => by simpa using (he.2.1 c hc).1
  have htok : tokenizeE (e.1 ++ ':' :: e.2) [':'] = .ok [e.1, e.2] := by
    simp only [tokenizeE, tokenize_eq,
      cutAtDelims_append_cons [':'] e.1 e.2 ':' hk (by simp), cutAtDelims_no_delim [':'] e.2 hv]
  simp only [mem_usage_line, htok, storeTokens, slot]
  simp only [bind, Except.bind, pure, Except.pure, Except.map, List.length_cons,
    List.length_nil, List.cons_append, List.nil_append, List.getElem?_cons_zero,
    List.getElem?_cons_succ]
  split_ifs <;> rfl

/-- The loop of `mem_usage` on a stream of `Key: value` lines: it ends
without fault, and its two variables hold the values of the last `MemTotal`
and the last `MemFree` line. -/
theorem mem_usage_loop_render (atof : List Char → ℚ) :
    ∀ (entries : List (List Char × List Char)) (fuel : Nat) (memTot : List (Option Char))
      (st : MemState),
      (∀ e ∈ entries, MeminfoEntry e) →
      memTot.length = BUF_SZ →
      (renderMeminfo entries).length < fuel →
      ∃ listTotal, mem_usage_loop atof fuel memTot (renderMeminfo entries) st =
        .ok ⟨listTotal, lastValue atof "MemTotal".toList st.totalmem entries,
          lastValue atof "MemFree".toList st.freemem entries⟩ := by
  intro entries
  induction entries with
  | nil =>
    intro fuel memTot st _ _ hfuel
    cases fuel with
    | zero => simp at hfuel
    | succ fuel =>
      exact ⟨st.listTotal, by
        simp [mem_usage_loop, renderMeminfo, read_line, read_line_loop, lastValue, pure,
          Except.pure]⟩
  | cons e es ih =>
    intro fuel memTot st hfmt hlen hfuel
    cases fuel with
    | zero => simp at hfuel
    | succ fuel =>
      have he : MeminfoEntry e := hfmt e (List.mem_cons_self _ _)
      have hes : ∀ x ∈ es, MeminfoEntry x := fun x hx => hfmt x (List.mem_cons_of_mem _ hx)
      have hnl : ∀ c ∈ e.1 ++ ':' :: e.2, c ≠ '\n' := by
        intro c hc
        simp only [List.mem_append, List.mem_cons] at hc
        rcases hc with hc | hc | hc
        · exact (he.1 c hc).2.1
        · subst hc; decide
        · exact (he.2.1 c hc).2.1
      have hnul : ∀ c ∈ e.1 ++ ':' :: e.2, c ≠ NUL := by
        intro c hc
        simp only [List.mem_append, List.mem_cons] at hc
        rcases hc with hc | hc | hc
        · exact (he.1 c hc).2.2
        · subst hc; decide
        · exact (he.2.1 c hc).2.2
      have hsz : (e.1 ++ ':' :: e.2).length + 3 ≤ BUF_SZ := by
        have := he.2.2
        simp only [List.length_append, List.length_cons]; omega
      obtain ⟨h1, h2, h3, h4⟩ := read_line_short_line memTot BUF_SZ (e.1 ++ ':' :: e.2)
        (renderMeminfo es) hnl hnul hsz hlen
      have hne : (read_line memTot BUF_SZ ((e.1 ++ ':' :: e.2) ++ '\n' :: renderMeminfo es)).total
          ≠ 0 := by
        rw [h1]; omega
      have hfuel2 : (renderMeminfo es).length < fuel := by
        simp only [renderMeminfo, List.length_append, List.length_cons] at hfuel; omega
      obtain ⟨lt, hlt⟩ := ih fuel _ ⟨storeTokens st.listTotal [e.1, e.2],
        if trimwhitespace e.1 = "MemTotal".toList then some (atof e.2) else st.totalmem,
        if trimwhitespace e.1 = "MemFree".toList then some (atof e.2) else st.freemem⟩
        hes h4 hfuel2
      refine ⟨lt, ?_⟩
      simp only [mem_usage_loop, renderMeminfo, hne, ne_eq, not_false_eq_true, if_true, h3, h2,
        mem_usage_line_entry atof e st he, bind, Except.bind]
      rw [hlt]
      simp only [lastValue]

/-- On a meminfo stream of newline-terminated lines, each a key, one colon and
a value, that fit in the buffer, in which the last line whose trimmed key is
`MemTotal` carries the value `t > 0` and the last line whose trimmed key is
`MemFree` carries the value `f`, `mem_usage` returns `max(0, (t - f) / t)`,
which is never negative. -/
theorem mem_usage_returns_clamped_ratio (atof : List Char → ℚ)
    (entries : List (List Char × List Char)) (t f : ℚ)
    (hfmt : ∀ e ∈ entries, MeminfoEntry e)
    (htot : lastValue atof "MemTotal".toList none entries = some t)
    (hfree : lastValue atof "MemFree".toList none entries = some f)
    (ht : 0 < t) :
    mem_usage atof (renderMeminfo entries) = .ok (max 0 ((t - f) / t)) ∧
    0 ≤ max 0 ((t - f) / t) := by
  refine ⟨?_, le_max_left _ _⟩
  obtain ⟨lt, hlt⟩ := mem_usage_loop_render atof entries ((renderMeminfo entries).length + 1)
    (List.replicate BUF_SZ none) ⟨[], none, none⟩ hfmt (List.length_replicate _ _)
    (Nat.lt_succ_self _)
  simp only [mem_usage, hlt, htot, hfree, bind, Except.bind, mem_usage_finish]
  have ht0 : t ≠ 0 := ne_of_gt ht
  by_cases hused : t - f < 0
  · have hq : (t - f) / t ≤ 0 := le_of_lt (div_neg_of_neg_of_pos hused ht)
    simp [hused, max_eq_left hq]
  · have hq : 0 ≤ (t - f) / t := div_nonneg (not_lt.mp hused) (le_of_lt ht)
    simp [hused, ht0, max_eq_right hq]

/-- The newline-terminated stream `MemTotal: 2000 kB`, `MemFree: 500 kB` gives
`0.75`, and `MemTotal` 1000 with `MemFree` 300 gives `0.7`. -/
theorem mem_usage_returns_clamped_ratio_witness :
    (renderMeminfo [("MemTotal".toList, " 2000 kB".toList), ("MemFree".toList, " 500 kB".toList)]
      = "MemTotal: 2000 kB\nMemFree: 500 kB\n".toList ∧
     (mem_usage atofDecimal
        (renderMeminfo
          [("MemTotal".toList, " 2000 kB".toList), ("MemFree".toList, " 500 kB".toList)])
        = .ok (max 0 ((2000 - 500) / 2000)) ∧
      (0 : ℚ) ≤ max 0 ((2000 - 500) / 2000)) ∧
     max (0 : ℚ) ((2000 - 500) / 2000) = 3 / 4) ∧
    (renderMeminfo [("MemTotal".toList, " 1000 kB".toList), ("MemFree".toList, " 300 kB".toList)]
      = "MemTotal: 1000 kB\nMemFree: 300 kB\n".toList ∧
     (mem_usage atofDecimal
        (renderMeminfo
          [("MemTotal".toList, " 1000 kB".toList), ("MemFree".toList, " 300 kB".toList)])
        = .ok (max 0 ((1000 - 300) / 1000)) ∧
      (0 : ℚ) ≤ max 0 ((1000 - 300) / 1000)) ∧
     max (0 : ℚ) ((1000 - 300) / 1000) = 7 / 10) :=
  ⟨⟨by decide,
    mem_usage_returns_clamped_ratio atofDecimal
      [("MemTotal".toList, " 2000 kB".toList), ("MemFree".toList, " 500 kB".toList)] 2000 500
      (by decide) (by decide!) (by decide!) (by norm_num),
    by norm_num⟩,
   ⟨by decide,
    mem_usage_returns_clamped_ratio atofDecimal
      [("MemTotal".toList, " 1000 kB".toList), ("MemFree".toList, " 300 kB".toList)] 1000 300
      (by decide) (by decide!) (by decide!) (by norm_num),
    by norm_num⟩⟩

/-- C9 fails on the code: in the stream `MemTotal: 2000`, newline,
`MemFree: 500` the two lines carry the values 2000 and 500, so `0.75` is
expected; the last line has no newline behind it, loses its last character in
`read_line` and is seen as `MemFree: 50`, so `mem_usage` returns
`(2000 - 50) / 2000 = 0.975`.  With the newline it returns `0.75`. -/
theorem mem_usage_misreads_unterminated_last_line :
    (atofDecimal " 2000".toList = 2000 ∧ atofDecimal " 500".toList = 500 ∧
      max (0 : ℚ) ((2000 - 500) / 2000) = 3 / 4) ∧
    mem_usage atofDecimal "MemTotal: 2000\nMemFree: 500".toList = .ok (39 / 40) ∧
    mem_usage atofDecimal "MemTotal: 2000\nMemFree: 500\n".toList = .ok (3 / 4) := by
  decide!

/-- C10 fails on the code: with `MemTotal` and `MemFree` both `0` the quotient
`0 / 0` is evaluated, and without a `MemTotal` line the variable `totalmem` is
read although nothing was stored in it; only a positive `MemFree` makes the
test `used < 0` return `0` for a zero total. -/
theorem mem_usage_zero_or_missing_total_faults :
    mem_usage atofDecimal "MemTotal: 0 kB\nMemFree: 0 kB\n".toList = .error .divisionByZero ∧
    mem_usage atofDecimal "MemFree: 500 kB\n".toList = .error .uninitialised ∧
    mem_usage atofDecimal "MemTotal: 0 kB\nMemFree: 500 kB\n".toList = .ok 0 := by
  decide!


/-! ## Uptime breakdown: proofs -/

/-- Converting a whole number to `int` gives that number. -/
theorem toInt_intCast (u : Int) : toInt (u : ℚ) = u := by
  simp [toInt]

/-- On a non-negative value the conversion to `int` is the floor. -/
theorem toInt_of_nonneg (q : ℚ) (h : 0 ≤ q) : toInt q = ⌊q⌋ := by
  have hnum : 0 ≤ q.num := Rat.num_nonneg.mpr h
  rw [Rat.floor_def, toInt, Int.tdiv_eq_ediv hnum (Int.ofNat_nonneg _)]

/-- The conversion to `int` commutes with negation. -/
theorem toInt_neg (q : ℚ) : toInt (-q) = -toInt q := by
  simp [toInt, Int.neg_tdiv]

/-- C16: for every uptime `u` that is a non-negative whole number of seconds
below `2^31`, the fields computed by `print_uptime` add up to `u`:
`years*31536000 + days*86400 + hours*3600 + minutes*60 + seconds = u`, with
`days < 365`, `hours < 24`, `minutes < 60` and `seconds < 60` (none of them
negative). -/
theorem uptime_fields_decompose (u : Int) (h0 : 0 ≤ u) (_hlt : u < 2147483648) :
    (uptime_fields (u : ℚ)).years * 31536000 + (uptime_fields (u : ℚ)).days * 86400 +
        (uptime_fields (u : ℚ)).hours * 3600 + (uptime_fields (u : ℚ)).minutes * 60 +
        (uptime_fields (u : ℚ)).seconds = u ∧
    (0 ≤ (uptime_fields (u : ℚ)).years) ∧
    (0 ≤ (uptime_fields (u : ℚ)).days ∧ (uptime_fields (u : ℚ)).days < 365) ∧
    (0 ≤ (uptime_fields (u : ℚ)).hours ∧ (uptime_fields (u : ℚ)).hours < 24) ∧
    (0 ≤ (uptime_fields (u : ℚ)).minutes ∧ (uptime_fields (u : ℚ)).minutes < 60) ∧
    (0 ≤ (uptime_fields (u : ℚ)).seconds ∧ (uptime_fields (u : ℚ)).seconds < 60) := by
  have hy : u.tmod 31536000 = u % 31536000 := Int.tmod_eq_emod h0 (by decide)
  have hy0 : 0 ≤ u % 31536000 := Int.emod_nonneg _ (by decide)
  have hd : (u % 31536000).tmod 86400 = u % 31536000 % 86400 :=
    Int.tmod_eq_emod hy0 (by decide)
  have hd0 : 0 ≤ u % 31536000 % 86400 := Int.emod_nonneg _ (by decide)
  have hh : (u % 31536000 % 86400).tmod 3600 = u % 31536000 % 86400 % 3600 :=
    Int.tmod_eq_emod hd0 (by decide)
  have hh0 : 0 ≤ u % 31536000 % 86400 % 3600 := Int.emod_nonneg _ (by decide)
  have hs : (u % 31536000 % 86400).tmod 60 = u % 31536000 % 86400 % 60 :=
    Int.tmod_eq_emod hd0 (by decide)
  simp only [uptime_fields, toInt_intCast, hy, hd, hh, hs,
    Int.tdiv_eq_ediv h0 (show (0 : Int) ≤ 31536000 by decide),
    Int.tdiv_eq_ediv hy0 (show (0 : Int) ≤ 86400 by decide),
    Int.tdiv_eq_ediv hd0 (show (0 : Int) ≤ 3600 by decide),
    Int.tdiv_eq_ediv hh0 (show (0 : Int) ≤ 60 by decide)]
  omega

/-- Witness for C16: 125 seconds are 2 minutes 5 seconds, 3665 seconds are
1 hour 1 minute 5 seconds, 31536000 seconds are 1 year and nothing else. -/
theorem uptime_fields_decompose_witness :
    (uptime_fields 125 = ⟨0, 0, 0, 2, 5⟩ ∧
     uptime_fields 3665 = ⟨0, 0, 1, 1, 5⟩ ∧
     uptime_fields 31536000 = ⟨1, 0, 0, 0, 0⟩) ∧
    ((0 : Int) ≤ 3665 ∧ (3665 : Int) < 2147483648) ∧
    (uptime_fields ((3665 : Int) : ℚ)).years * 31536000 +
        (uptime_fields ((3665 : Int) : ℚ)).days * 86400 +
        (uptime_fields ((3665 : Int) : ℚ)).hours * 3600 +
        (uptime_fields ((3665 : Int) : ℚ)).minutes * 60 +
        (uptime_fields ((3665 : Int) : ℚ)).seconds = 3665 :=
  ⟨by decide!, by decide, (uptime_fields_decompose 3665 (by decide) (by decide)).1⟩

/-! ## Percentage bars: proofs -/

/-- The cells of a printed run of `a` filled and `b` empty cells. -/
theorem barCells_bar (a b : Nat) (rest : List Char) :
    barCells ('[' :: (List.replicate a '#' ++ (List.replicate b '-' ++ (']' :: rest)))) =
      List.replicate a '#' ++ List.replicate b '-' := by
  have h2 : ∀ n : Nat, List.takeWhile (fun c => decide (c ≠ ']'))
      (List.replicate n '-' ++ (']' :: rest)) = List.replicate n '-' := by
    intro n
    induction n with
    | zero => simp
    | succ n ih => simp [List.replicate_succ, ih]
  have h1 : ∀ n : Nat, List.takeWhile (fun c => decide (c ≠ ']'))
      (List.replicate n '#' ++ (List.replicate b '-' ++ (']' :: rest))) =
        List.replicate n '#' ++ List.replicate b '-' := by
    intro n
    induction n with
    | zero => exact h2 b
    | succ n ih => simp [List.replicate_succ, ih]
  exact h1 a

/-- The number of cells `percentage_bar` prints, whatever the percentage. -/
theorem barCells_percentage_bar (fmt1 : ℚ → List Char) (p : ℚ) :
    barCells (percentage_bar fmt1 p) =
      List.replicate (num_hash p).toNat '#' ++ List.replicate (20 - num_hash p).toNat '-' := by
  simp only [percentage_bar, num_hash]
  exact barCells_bar _ _ _

/-- Rounding to the nearest integer does not pass an integer bound. -/
theorem roundHalfEven_le (y : ℚ) (M : ℤ) (h : y ≤ M) : roundHalfEven y ≤ M := by
  have hfl : ⌊y⌋ ≤ M := Int.cast_le.mp (le_trans (Int.floor_le y) h)
  have hstep : ¬ (y - ⌊y⌋ < 1 / 2) → ⌊y⌋ + 1 ≤ M := by
    intro hn
    have h1 : ((⌊y⌋ : ℤ) : ℚ) < (M : ℚ) := by linarith
    have := Int.cast_lt.mp h1
    omega
  unfold roundHalfEven
  split_ifs with h1 h2 h3
  · exact hfl
  · exact hstep h1
  · exact hfl
  · exact hstep h1

/-- Rounding a non-negative number to the nearest integer gives a
non-negative integer. -/
theorem roundHalfEven_nonneg (y : ℚ) (h : 0 ≤ y) : 0 ≤ roundHalfEven y := by
  have hfl : 0 ≤ ⌊y⌋ := Int.floor_nonneg.mpr h
  unfold roundHalfEven
  split_ifs <;> omega

/-- Rounding to `double` keeps a non-negative result non-negative. -/
theorem roundDouble_nonneg (x : ℚ) (h : 0 ≤ x) : 0 ≤ roundDouble x := by
  unfold roundDouble
  split_ifs with h0
  · exact le_refl 0
  · have hu : (0 : ℚ) < (2 : ℚ) ^ (binade |x| - 52) := zpow_pos (by norm_num) _
    have hq : 0 ≤ x / (2 : ℚ) ^ (binade |x| - 52) := div_nonneg h (le_of_lt hu)
    have := roundHalfEven_nonneg _ hq
    exact mul_nonneg (by exact_mod_cast this) (le_of_lt hu)

/-- Rounding to `double` does not pass a bound `B` that is itself a `double`:
`B = M * 2^(eB - 52)` with `2^eB ≤ B < 2^(eB + 1)`. -/
theorem roundDouble_le (x B : ℚ) (eB M : ℤ) (hx : 0 ≤ x) (hxB : x ≤ B)
    (h1 : (2 : ℚ) ^ eB ≤ B) (h2 : B < (2 : ℚ) ^ (eB + 1)) (h3 : -1022 ≤ eB)
    (h4 : B = (M : ℚ) * (2 : ℚ) ^ (eB - 52)) : roundDouble x ≤ B := by
  have hB0 : 0 ≤ B := le_trans (le_of_lt (zpow_pos (by norm_num) _)) h1
  by_cases hx0 : x = 0
  · simp [roundDouble, hx0, hB0]
  have hxpos : 0 < x := lt_of_le_of_ne hx (Ne.symm hx0)
  have habs : |x| = x := abs_of_pos hxpos
  have hlog_lt : Int.log 2 x < eB + 1 := by
    apply (Int.lt_zpow_iff_log_lt (by norm_num : 1 < 2) hxpos).mp
    exact_mod_cast lt_of_le_of_lt hxB h2
  have he_le : binade x ≤ eB := by
    unfold binade
    exact max_le (by omega) h3
  have hu : (0 : ℚ) < (2 : ℚ) ^ (binade x - 52) := zpow_pos (by norm_num) _
  simp only [roundDouble, hx0, if_false, habs]
  rcases eq_or_lt_of_le he_le with heq | hlt
  · rw [heq]
    rw [heq] at hu
    have hq : x / (2 : ℚ) ^ (eB - 52) ≤ (M : ℚ) := by
      rw [div_le_iff₀ hu, ← h4]; exact hxB
    have := roundHalfEven_le _ M hq
    calc (roundHalfEven (x / (2 : ℚ) ^ (eB - 52)) : ℚ) * (2 : ℚ) ^ (eB - 52)
        ≤ (M : ℚ) * (2 : ℚ) ^ (eB - 52) :=
          mul_le_mul_of_nonneg_right (by exact_mod_cast this) (le_of_lt hu)
      _ = B := h4.symm
  · have hxlt : x < (2 : ℚ) ^ (binade x + 1) := by
      have h := Int.lt_zpow_succ_log_self (by norm_num : 1 < 2) x
      have h5 : x < (2 : ℚ) ^ (Int.log 2 x + 1) := by exact_mod_cast h
      have hlog_le : Int.log 2 x ≤ binade x := le_max_left _ _
      exact lt_of_lt_of_le h5 (zpow_le_zpow_right₀ (by norm_num) (by omega))
    have hsplit : (2 : ℚ) ^ (binade x + 1) =
        ((2 ^ 53 : ℤ) : ℚ) * (2 : ℚ) ^ (binade x - 52) := by
      have : binade x + 1 = 53 + (binade x - 52) := by ring
      rw [this, zpow_add₀ (by norm_num : (2 : ℚ) ≠ 0)]
      norm_num
    have hq : x / (2 : ℚ) ^ (binade x - 52) ≤ ((2 ^ 53 : ℤ) : ℚ) := by
      rw [div_le_iff₀ hu, ← hsplit]; exact le_of_lt hxlt
    have := roundHalfEven_le _ _ hq
    calc (roundHalfEven (x / (2 : ℚ) ^ (binade x - 52)) : ℚ) * (2 : ℚ) ^ (binade x - 52)
        ≤ ((2 ^ 53 : ℤ) : ℚ) * (2 : ℚ) ^ (binade x - 52) :=
          mul_le_mul_of_nonneg_right (by exact_mod_cast this) (le_of_lt hu)
      _ = (2 : ℚ) ^ (binade x + 1) := hsplit.symm
      _ ≤ (2 : ℚ) ^ eB := zpow_le_zpow_right₀ (by norm_num) (by omega)
      _ ≤ B := h1

/-- For a percentage between 0 and 1 the filled-cell count computed in
`double` lies between 0 and 20. -/
theorem num_hash_range (p : ℚ) (h0 : 0 ≤ p) (h1 : p ≤ 1) :
    0 ≤ num_hash p ∧ num_hash p ≤ 20 := by
  have hx0 : 0 ≤ p * 100 := by positivity
  have hx1 : p * 100 ≤ 100 := by linarith
  have hy0 : 0 ≤ roundDouble (p * 100) := roundDouble_nonneg _ hx0
  have hy1 : roundDouble (p * 100) ≤ 100 :=
    roundDouble_le (p * 100) 100 6 (100 * 2 ^ 46) hx0 hx1 (by norm_num) (by norm_num)
      (by norm_num) (by norm_num)
  have hz0 : 0 ≤ roundDouble (p * 100) / 5 := by positivity
  have hz1 : roundDouble (p * 100) / 5 ≤ 20 := by linarith
  have hw0 : 0 ≤ roundDouble (roundDouble (p * 100) / 5) := roundDouble_nonneg _ hz0
  have hw1 : roundDouble (roundDouble (p * 100) / 5) ≤ 20 :=
    roundDouble_le _ 20 4 (20 * 2 ^ 48) hz0 hz1 (by norm_num) (by norm_num)
      (by norm_num) (by norm_num)
  simp only [num_hash]
  rw [toInt_of_nonneg _ hw0]
  refine ⟨Int.floor_nonneg.mpr hw0, ?_⟩
  have h20 : roundDouble (roundDouble (p * 100) / 5) ≤ ((20 : ℤ) : ℚ) := by
    push_cast; exact hw1
  exact Int.cast_le.mp (le_trans (Int.floor_le _) h20)

/-- C17 as stated fails: the `double` just below `0.05`, which is
`7205759403792793 / 2^57`, lies between 0 and 1 and has `floor(p*100/5) = 0`,
but the product `p*100` rounds to `5` in `double`, so one cell is filled. -/
theorem percentage_bar_fills_one_cell_below_five_percent :
    ((0 : ℚ) ≤ 7205759403792793 / 2 ^ 57 ∧ (7205759403792793 / 2 ^ 57 : ℚ) ≤ 1) ∧
    roundDouble (7205759403792793 / 2 ^ 57) = 7205759403792793 / 2 ^ 57 ∧
    ⌊(7205759403792793 / 2 ^ 57 : ℚ) * 100 / 5⌋ = 0 ∧
    roundDouble ((7205759403792793 / 2 ^ 57 : ℚ) * 100) = 5 ∧
    barCells (percentage_bar (fun _ => "5.0".toList) (7205759403792793 / 2 ^ 57)) =
      List.replicate 1 '#' ++ List.replicate 19 '-' := by
  decide!

/-- C17 (amended): for every percentage `p` with `0 ≤ p ≤ 1`, `percentage_bar`
(and identically `percentage_bar_mem`) renders between the brackets exactly 20
cells, of which the first `(int)((p*100)/5)`, the quotient being computed in
`double` arithmetic, are `#` and the rest are `-`; this count lies between 0
and 20. -/
theorem percentage_bar_twenty_cells (fmt1 : ℚ → List Char) (p : ℚ)
    (h0 : 0 ≤ p) (h1 : p ≤ 1) :
    barCells (percentage_bar fmt1 p) =
      List.replicate (num_hash p).toNat '#' ++
        List.replicate (20 - (num_hash p).toNat) '-' ∧
    (0 ≤ num_hash p ∧ num_hash p ≤ 20) ∧
    (barCells (percentage_bar fmt1 p)).length = 20 ∧
    percentage_bar_mem fmt1 p = percentage_bar fmt1 p := by
  have hr := num_hash_range p h0 h1
  have hhip : (20 - num_hash p).toNat = 20 - (num_hash p).toNat := by omega
  have hcells := barCells_percentage_bar fmt1 p
  rw [hhip] at hcells
  refine ⟨hcells, hr, ?_, rfl⟩
  rw [hcells, List.length_append, List.length_replicate, List.length_replicate]
  omega

/-- Witness for C17 (amended): the percentage `0.5` renders 10 filled cells
out of 20. -/
theorem percentage_bar_twenty_cells_witness :
    ((0 : ℚ) ≤ 1 / 2 ∧ (1 / 2 : ℚ) ≤ 1) ∧
    num_hash (1 / 2) = 10 ∧
    (barCells (percentage_bar (fun _ => "50.0".toList) (1 / 2)) =
      List.replicate (num_hash (1 / 2)).toNat '#' ++
        List.replicate (20 - (num_hash (1 / 2)).toNat) '-' ∧
     (0 ≤ num_hash (1 / 2) ∧ num_hash (1 / 2) ≤ 20) ∧
     (barCells (percentage_bar (fun _ => "50.0".toList) (1 / 2))).length = 20 ∧
     percentage_bar_mem (fun _ => "50.0".toList) (1 / 2) =
       percentage_bar (fun _ => "50.0".toList) (1 / 2)) ∧
    percentage_bar (fun _ => "50.0".toList) (1 / 2) = "[##########----------] 50.0%".toList :=
  ⟨by norm_num, by decide!,
   percentage_bar_twenty_cells (fun _ => "50.0".toList) (1 / 2) (by norm_num) (by norm_num),
   by decide!⟩

/-- C20 as stated fails: the percentage `1.5` renders 30 filled cells and the
percentage `-0.5` renders 30 empty cells between the brackets. -/
theorem percentage_bar_width_not_fixed :
    barCells (percentage_bar (fun _ => "150.0".toList) (3 / 2)) = List.replicate 30 '#' ∧
    barCells (percentage_bar (fun _ => "-50.0".toList) (-1 / 2)) = List.replicate 30 '-' := by
  decide!

/-- C20 (amended): for every percentage value `p` whose filled-cell count
`(int)((p*100)/5)`, computed in `double` arithmetic, lies between 0 and 20, the
bar rendered by `percentage_bar` has a fixed width: exactly 20 cells (`#` or
`-`) appear between `[` and `]`; every `p` with `0 ≤ p ≤ 1` has such a
count. -/
theorem percentage_bar_fixed_width_of_count (fmt1 : ℚ → List Char) (p : ℚ)
    (h : 0 ≤ num_hash p ∧ num_hash p ≤ 20) :
    (barCells (percentage_bar fmt1 p)).length = 20 ∧
    (∀ c ∈ barCells (percentage_bar fmt1 p), c = '#' ∨ c = '-') ∧
    (∀ q : ℚ, 0 ≤ q → q ≤ 1 → 0 ≤ num_hash q ∧ num_hash q ≤ 20) := by
  refine ⟨?_, ?_, fun q h0 h1 => num_hash_range q h0 h1⟩
  · rw [barCells_percentage_bar, List.length_append, List.length_replicate,
      List.length_replicate]
    omega
  · intro c hc
    rw [barCells_percentage_bar, List.mem_append] at hc
    rcases hc with hc | hc
    · exact Or.inl (List.eq_of_mem_replicate hc)
    · exact Or.inr (List.eq_of_mem_replicate hc)

/-- Witness for C20 (amended): the percentages `-0.0078125` and `1.03125` lie
outside `[0, 1]` and have the counts 0 and 20; the bar of `-0.0078125` has 20
cells `-`. -/
theorem percentage_bar_fixed_width_of_count_witness :
    (num_hash (-1 / 128) = 0 ∧ num_hash (33 / 32) = 20) ∧
    barCells (percentage_bar (fun _ => "-0.8".toList) (-1 / 128)) = List.replicate 20 '-' ∧
    ((barCells (percentage_bar (fun _ => "-0.8".toList) (-1 / 128))).length = 20 ∧
     (∀ c ∈ barCells (percentage_bar (fun _ => "-0.8".toList) (-1 / 128)), c = '#' ∨ c = '-') ∧
     (∀ q : ℚ, 0 ≤ q → q ≤ 1 → 0 ≤ num_hash q ∧ num_hash q ≤ 20)) :=
  ⟨by decide!, by decide!,
   percentage_bar_fixed_width_of_count (fun _ => "-0.8".toList) (-1 / 128) (by decide!)⟩

/-- The `double` just above `-0.05` gives the count `-1` and a bar of 21
cells. -/
theorem percentage_bar_just_above_minus_five_percent :
    num_hash (-7205759403792793 / 2 ^ 57) = -1 ∧
    barCells (percentage_bar (fun _ => "-5.0".toList) (-7205759403792793 / 2 ^ 57)) =
      List.replicate 21 '-' := by
  decide!

/-! ## View selection: evaluation -/

/-- C19 fails on the code: with live view selected together with another
view, `main` first produces the sections of the other views and only then
enters the live view (`-s -l` gives System Information, `-l -r` Hardware
Information, `-t -l` Task Information, each before the live view); live view
alone gives the live view only. -/
theorem main_renders_other_views_before_live_view :
    main "sl".toList = [Section.system, Section.live] ∧
    main "lr".toList = [Section.hardware, Section.live] ∧
    main "tl".toList = [Section.task, Section.live] ∧
    main "al".toList = [Section.system, Section.hardware, Section.task, Section.live] ∧
    main "l".toList = [Section.live] ∧
    (∀ options : view_opts, options.live_view = true →
      (options.system = true → Section.system ∈ renderViews options) ∧
      (options.hardware = true → Section.hardware ∈ renderViews options) ∧
      (options.task_list = true → Section.task ∈ renderViews options)) := by
  refine ⟨by decide, by decide, by decide, by decide, by decide, ?_⟩
  intro options _
  refine ⟨?_, ?_, ?_⟩ <;> intro h <;> simp [renderViews, h]

/-! ## Integer to string: evaluation -/

/-- C13 fails on the code: for `i = -2147483648` the statement `i *= -1`
leaves `i` negative, so `digit[i%10]` is read at index `-8`, outside the
array; the decimal representation is not stored, and a `Uid` line with that
value and no known owner gives no owner string.  Other values, such as `0`,
`1000`, `-45` and the two extremes `2147483647` and `-2147483647`, are
rendered in decimal, and an unknown owner `1000` is displayed as `1000`. -/
theorem itoa_fails_on_int_min :
    wrap32 (-2147483648 * -1) = -2147483648 ∧
    (-2147483648 : Int).tmod 10 = -8 ∧
    itoaString 16 (-2147483648) = .error .outOfBounds ∧
    num_process_line atoiDecimal rootOnly "Uid:\t-2147483648".toList
      ⟨[], none, none, none, [' '], none⟩ = .error .outOfBounds ∧
    itoaString 16 0 = .ok "0".toList ∧
    itoaString 16 1000 = .ok "1000".toList ∧
    itoaString 16 (-45) = .ok "-45".toList ∧
    itoaString 16 2147483647 = .ok "2147483647".toList ∧
    itoaString 16 (-2147483647) = .ok "-2147483647".toList ∧
    (num_process_line atoiDecimal rootOnly "Uid:\t1000\t1000\t1000\t1000".toList
      ⟨[], none, none, none, [' '], none⟩).map (fun st => st.user) =
        .ok (some "1000".toList) := by
  decide


/-! ## Reading a file line by line: proofs -/

/-- The string held by cells that start with `pre` followed by a NUL, when
`pre` itself may contain a NUL. -/
theorem cstr_prefix_takeWhile (pre : List Char) (tail : List (Option Char)) :
    cstr (pre.map some ++ some NUL :: tail) = .ok (pre.takeWhile (fun c => c ≠ NUL)) := by
  induction pre with
  | nil => simp [cstr]
  | cons c cs ih =>
    by_cases hc : c = NUL
    · simp [cstr, hc]
    · simp [cstr, hc, ih, Except.map]

/-- One call of `read_line` inside a loop delivers the first of the delivered
lines and leaves the stream where the remaining ones start. -/
theorem read_line_loop_delivers (size : Nat) :
    ∀ (fd pre : List Char) (tail : List (Option Char)) (w : List Int),
      pre.length + 2 ≤ size → pre.length + tail.length = size → (fd ≠ [] ∨ pre ≠ []) →
      ∃ (rec rest : List Char) (tail2 : List (Option Char)),
        (read_line_loop size fd (pre.length : Int) (pre.map some ++ tail) w).total ≠ 0 ∧
        (read_line_loop size fd (pre.length : Int) (pre.map some ++ tail) w).fd = rest ∧
        (read_line_loop size fd (pre.length : Int) (pre.map some ++ tail) w).str =
          rec.map some ++ some NUL :: tail2 ∧
        (read_line_loop size fd (pre.length : Int) (pre.map some ++ tail) w).str.length = size ∧
        deliveredFrom size fd pre = rec :: deliveredFrom size rest [] ∧
        rest.length ≤ fd.length ∧ (fd ≠ [] → rest.length < fd.length) := by
  intro fd
  induction fd with
  | nil =>
    intro pre tail w hsz hlen hne
    have hpre : pre ≠ [] := by
      rcases hne with h | h
      · exact absurd rfl h
      · exact h
    obtain ⟨p, b, rfl⟩ : ∃ p b, pre = p ++ [b] :=
      ⟨pre.dropLast, pre.getLast hpre, (List.dropLast_append_getLast hpre).symm⟩
    have hl : (((p ++ [b]).length : Nat) : Int) = (p.length : Int) + 1 := by simp
    refine ⟨p, [], tail, ?_, ?_, ?_, ?_, ?_, ?_, ?_⟩
    · simp only [read_line_loop, hl]; omega
    · simp [read_line_loop]
    · simp only [read_line_loop, hl, store_at_last]
    · simp only [read_line_loop, hl, store_at_last]
      simp only [List.length_append, List.length_map, List.length_cons, List.length_nil] at hlen ⊢
      omega
    · simp [deliveredFrom]
    · simp
    · intro h; exact absurd rfl h
  | cons t fd ih =>
    intro pre tail w hsz hlen _
    match tail, hlen with
    | [], hlen => simp only [List.length_nil] at hlen; omega
    | [x], hlen => simp only [List.length_cons, List.length_nil] at hlen; omega
    | x :: y :: tail, hlen =>
      have hl : ((pre.length : Int) + 1) = (((pre ++ [t]).length : Nat) : Int) := by simp
      simp only [List.length_cons] at hlen
      by_cases hg : (pre.length : Int) + 1 + 2 > (size : Int)
      · refine ⟨pre ++ [t], fd, tail, ?_, ?_, ?_, ?_, ?_, ?_, ?_⟩
        · simp only [read_line_loop, hg, if_true]; omega
        · simp only [read_line_loop, hg, if_true]
        · simp only [read_line_loop, hg, if_true, store_at_prefix]
          rw [hl, store_at_prefix]
          simp
        · simp only [read_line_loop, hg, if_true, store_at_prefix]
          rw [hl, store_at_prefix]
          simp only [List.length_append, List.length_map, List.length_cons, List.length_nil]
          omega
        · have hg2 : pre.length + 3 > size := by omega
          simp [deliveredFrom, hg2]
        · simp
        · intro _; simp
      · by_cases hn : t = '\n'
        · refine ⟨pre, fd, y :: tail, ?_, ?_, ?_, ?_, ?_, ?_, ?_⟩
          · simp only [read_line_loop, hg, if_false, hn, if_true]; omega
          · simp only [read_line_loop, hg, if_false, hn, if_true]
          · simp only [read_line_loop, hg, if_false, hn, if_true, store_at_prefix,
              store_at_last]
          · simp only [read_line_loop, hg, if_false, hn, if_true, store_at_prefix,
              store_at_last]
            simp only [List.length_append, List.length_map, List.length_cons]
            omega
          · have hg2 : ¬ (pre.length + 3 > size) := by omega
            simp [deliveredFrom, hg2, hn]
          · simp
          · intro _; simp
        · have hsz2 : (pre ++ [t]).length + 2 ≤ size := by
            simp only [List.length_append, List.length_cons, List.length_nil]; omega
          have hlen2 : (pre ++ [t]).length + (y :: tail).length = size := by
            simp only [List.length_append, List.length_cons, List.length_nil]; omega
          obtain ⟨rec, rest, tail2, h1, h2, h3, h4, h5, h6, _⟩ :=
            ih (pre ++ [t]) (y :: tail) (w ++ [(pre.length : Int)]) hsz2 hlen2
              (Or.inr (by simp))
          refine ⟨rec, rest, tail2, ?_, ?_, ?_, ?_, ?_, ?_, ?_⟩
          · simp only [read_line_loop, hg, if_false, hn, store_at_prefix]; rw [hl]; exact h1
          · simp only [read_line_loop, hg, if_false, hn, store_at_prefix]; rw [hl]; exact h2
          · simp only [read_line_loop, hg, if_false, hn, store_at_prefix]; rw [hl]; exact h3
          · simp only [read_line_loop, hg, if_false, hn, store_at_prefix]; rw [hl]; exact h4
          · have hg2 : ¬ (pre.length + 3 > size) := by omega
            simp only [deliveredFrom, hg2, if_false, hn]; exact h5
          · simp only [List.length_cons]; omega
          · intro _; simp only [List.length_cons]; omega

/-- A loop over `read_line` with a buffer of `BUF_SZ` cells applies its body
to the delivered lines of the stream, in order, and to nothing else; the
budget `length + 1` is never exhausted. -/
theorem scanLines_eq_runSteps {σ : Type} (step : List Char → σ → Except Abort σ) :
    ∀ (fuel : Nat) (line : List (Option Char)) (fd : List Char) (st : σ),
      line.length = BUF_SZ → fd.length < fuel →
      (scanLines step fuel line fd st).map Prod.fst = runSteps step (deliveredLines fd) st := by
  intro fuel
  induction fuel with
  | zero => intro line fd st _ h; simp at h
  | succ fuel ih =>
    intro line fd st hlen hfuel
    cases fd with
    | nil =>
      simp [scanLines, read_line, read_line_loop, deliveredLines, deliveredFrom, runSteps,
        pure, Except.pure, Except.map]
    | cons t fd =>
      obtain ⟨rec, rest, tail2, h1, h2, h3, h4, h5, _, h7⟩ :=
        read_line_loop_delivers BUF_SZ (t :: fd) [] line [] (by decide)
          (by simpa using hlen) (Or.inl (by simp))
      simp only [List.length_nil, Nat.cast_zero, List.map_nil, List.nil_append] at h1 h2 h3 h4
      have hrest : rest.length < fuel := by
        have := h7 (by simp)
        omega
      have hdel : deliveredLines (t :: fd) =
          rec.takeWhile (fun c => c ≠ NUL) :: deliveredLines rest := by
        simp only [deliveredLines, h5, List.map_cons]
      have hcstr : cstr (read_line line BUF_SZ (t :: fd)).str =
          .ok (rec.takeWhile (fun c => c ≠ NUL)) := by
        simp only [read_line]; rw [h3]; exact cstr_prefix_takeWhile rec tail2
      have hne : (read_line line BUF_SZ (t :: fd)).total ≠ 0 := h1
      have hfd : (read_line line BUF_SZ (t :: fd)).fd = rest := h2
      have hlen2 : (read_line line BUF_SZ (t :: fd)).str.length = BUF_SZ := h4
      rw [hdel]
      simp only [scanLines, hne, ne_eq, not_false_eq_true, if_true, hcstr, hfd, bind,
        Except.bind, runSteps]
      cases hstep : step (rec.takeWhile (fun c => c ≠ NUL)) st with
      | error e => simp [Except.map]
      | ok st2 => exact ih _ rest st2 hlen2 hrest

/-- Lines that fit are delivered as they are. -/
theorem deliveredFrom_line (size : Nat) (rest : List Char) :
    ∀ (l cur : List Char), (∀ c ∈ l, c ≠ '\n') → cur.length + l.length + 3 ≤ size →
      deliveredFrom size (l ++ '\n' :: rest) cur = (cur ++ l) :: deliveredFrom size rest [] := by
  intro l
  induction l with
  | nil =>
    intro cur _ hsz
    have hg : ¬ (cur.length + 3 > size) := by simp only [List.length_nil] at hsz; omega
    simp [deliveredFrom, hg]
  | cons c l ih =>
    intro cur hnl hsz
    have hc : c ≠ '\n' := hnl c (List.mem_cons_self _ _)
    have hl : ∀ y ∈ l, y ≠ '\n' := fun y hy => hnl y (List.mem_cons_of_mem _ hy)
    have hg : ¬ (cur.length + 3 > size) := by simp only [List.length_cons] at hsz; omega
    have hsz2 : (cur ++ [c]).length + l.length + 3 ≤ size := by
      simp only [List.length_append, List.length_cons, List.length_nil] at hsz ⊢; omega
    simp only [List.cons_append, deliveredFrom, hg, if_false, hc]
    refine (ih (cur ++ [c]) hl hsz2).trans ?_
    simp

/-- For a stream of newline-terminated lines that fit in the buffer, the
delivered lines are the lines of the stream. -/
theorem deliveredLines_renderLines (lines : List (List Char))
    (hfit : ∀ l ∈ lines, LineFits l) : deliveredLines (renderLines lines) = lines := by
  induction lines with
  | nil => simp [deliveredLines, renderLines, deliveredFrom]
  | cons l ls ih =>
    have hl : LineFits l := hfit l (List.mem_cons_self _ _)
    have hls : ∀ x ∈ ls, LineFits x := fun x hx => hfit x (List.mem_cons_of_mem _ hx)
    have hnl : ∀ c ∈ l, c ≠ '\n' := fun c hc => (hl.1 c hc).1
    have hnul : ∀ c ∈ l, (decide (c ≠ NUL)) = true := fun c hc => by simpa using (hl.1 c hc).2
    have h := deliveredFrom_line BUF_SZ (renderLines ls) l [] hnl (by simpa using hl.2)
    have ih2 := ih hls
    simp only [deliveredLines] at ih2 ⊢
    simp only [renderLines, h, List.nil_append, List.map_cons, ih2,
      List.takeWhile_eq_self_iff.mpr hnul]

/-! ## CPU information: proofs -/

/-- A line that is a single token is that token. -/
theorem cutAtDelims_singleton (D : List Char) :
    ∀ (l x : List Char), cutAtDelims D l = [x] → x = l := by
  intro l
  induction l with
  | nil => intro x h; simpa [cutAtDelims] using h.symm
  | cons c cs ih =>
    intro x h
    by_cases hc : c ∈ D
    · simp [cutAtDelims, hc, cutAtDelims_ne_nil] at h
    · cases hcut : cutAtDelims D cs with
      | nil => exact absurd hcut (cutAtDelims_ne_nil D cs)
      | cons seg rest =>
        simp only [cutAtDelims, hc, if_false, hcut, List.cons.injEq] at h
        obtain ⟨h1, h2⟩ := h
        subst h2
        rw [← h1, ih seg hcut]

/-- The loop body of `parse_cpuinfo` on a line other than the bare word
`model`: it ends without fault and acts on the tokens of the line. -/
theorem parse_cpuinfo_line_eq (l : List Char) (st : CpuState) (hm : l ≠ "model".toList) :
    parse_cpuinfo_line l st = .ok (cpuStep st l) := by
  have htok : tokenizeE l [' ', ':', '\t'] = .ok (cpuTokens l) := by
    simp only [tokenizeE, tokenize_eq, cpuTokens]
  cases hcut : cpuTokens l with
  | nil => exact absurd hcut (cutAtDelims_ne_nil _ l)
  | cons t0 ts =>
    cases ts with
    | nil =>
      have ht0 : t0 = l := cutAtDelims_singleton _ l t0 hcut
      have hne : t0 ≠ "model".toList := by rw [ht0]; exact hm
      simp only [parse_cpuinfo_line, htok, hcut, slot, cpuStep, isModelNameLine,
        isProcessorLine, bind, Except.bind, pure, Except.pure]
      split_ifs <;> simp_all
    | cons t1 ts =>
      simp only [parse_cpuinfo_line, htok, hcut, slot, cpuStep, isModelNameLine,
        isProcessorLine, bind, Except.bind, pure, Except.pure]
      split_ifs <;> simp_all

/-- The loop body of `parse_cpuinfo` over lines none of which is the bare
word `model`. -/
theorem runSteps_parse_cpuinfo_line :
    ∀ (lines : List (List Char)) (st : CpuState), "model".toList ∉ lines →
      runSteps parse_cpuinfo_line lines st = .ok (lines.foldl cpuStep st) := by
  intro lines
  induction lines with
  | nil => intro st _; rfl
  | cons l ls ih =>
    intro st hm
    have hl : l ≠ "model".toList := fun h => hm (by simp [h])
    have hls : "model".toList ∉ ls := fun h => hm (List.mem_cons_of_mem _ h)
    simp only [runSteps, parse_cpuinfo_line_eq l st hl, List.foldl_cons]
    exact ih _ hls

/-- Appending tokens one by one puts a space behind each of them. -/
theorem appendTokens_eq (toks : List (List Char)) :
    ∀ m : List Char, appendTokens m toks = m ++ spaceTerminated toks := by
  induction toks with
  | nil => intro m; simp [appendTokens, spaceTerminated]
  | cons t ts ih =>
    intro m
    simp only [appendTokens, ih, spaceTerminated, List.flatMap_cons, List.append_assoc]

/-- The counter after the loop: one more for every line whose first token is
`processor`. -/
theorem foldl_cpuStep_proc_count :
    ∀ (lines : List (List Char)) (st : CpuState),
      (lines.foldl cpuStep st).proc_count = st.proc_count + lines.countP isProcessorLine := by
  intro lines
  induction lines with
  | nil => intro st; simp
  | cons l ls ih =>
    intro st
    rw [List.foldl_cons, ih, List.countP_cons]
    by_cases hp : isProcessorLine l = true <;>
      by_cases hmn : (isModelNameLine l && !st.found) = true <;>
      simp [cpuStep, hp, hmn] <;> omega

/-- The model name after the loop: once the flag is set nothing changes it;
before that the first line with the leading tokens `model` and `name` sets it. -/
theorem foldl_cpuStep_model_name :
    ∀ (lines : List (List Char)) (st : CpuState),
      (lines.foldl cpuStep st).model_name =
        if st.found then st.model_name
        else
          match lines.find? isModelNameLine with
          | some l => appendTokens st.model_name ((cpuTokens l).drop 4)
          | none => st.model_name := by
  intro lines
  induction lines with
  | nil => intro st; simp
  | cons l ls ih =>
    intro st
    rw [List.foldl_cons, ih, List.find?_cons]
    by_cases hf : st.found = true
    · by_cases hp : isProcessorLine l = true <;> simp [cpuStep, hf, hp]
    · by_cases hmn : isModelNameLine l = true <;> by_cases hp : isProcessorLine l = true <;>
        simp [cpuStep, hf, hp, hmn]

/-- What `parse_cpuinfo` reports for a stream none of whose delivered lines is
the bare word `model`. -/
theorem parse_cpuinfo_eq (cpuinfo : List Char) (hm : "model".toList ∉ deliveredLines cpuinfo) :
    parse_cpuinfo cpuinfo =
      .ok (modelNameOf (deliveredLines cpuinfo),
        (deliveredLines cpuinfo).countP isProcessorLine) := by
  have h := scanLines_eq_runSteps parse_cpuinfo_line (cpuinfo.length + 1)
    (List.replicate BUF_SZ none) cpuinfo ⟨[], 0, false⟩ (List.length_replicate _ _)
    (Nat.lt_succ_self _)
  rw [runSteps_parse_cpuinfo_line _ _ hm] at h
  cases hs : scanLines parse_cpuinfo_line (cpuinfo.length + 1) (List.replicate BUF_SZ none)
      cpuinfo ⟨[], 0, false⟩ with
  | error e => rw [hs] at h; simp [Except.map] at h
  | ok pr =>
    rw [hs] at h
    have hfst : pr.1 = (deliveredLines cpuinfo).foldl cpuStep ⟨[], 0, false⟩ := by
      simpa [Except.map] using h
    simp only [parse_cpuinfo, hs, bind, Except.bind, pure, Except.pure, hfst,
      foldl_cpuStep_proc_count, foldl_cpuStep_model_name, modelNameOf]
    cases (deliveredLines cpuinfo).find? isModelNameLine with
    | none => simp
    | some l => simp [appendTokens_eq]

/-- The model name when the delivered lines are split at the first line with
the leading tokens `model` and `name`. -/
theorem modelNameOf_first (pre post : List (List Char)) (l : List Char)
    (hpre : ∀ x ∈ pre, isModelNameLine x = false) (hl : isModelNameLine l = true) :
    modelNameOf (pre ++ l :: post) = spaceTerminated ((cpuTokens l).drop 4) := by
  induction pre with
  | nil => simp [modelNameOf, List.find?_cons, hl]
  | cons x xs ih =>
    have hx : isModelNameLine x = false := hpre x (List.mem_cons_self _ _)
    have hxs : ∀ y ∈ xs, isModelNameLine y = false :=
      fun y hy => hpre y (List.mem_cons_of_mem _ hy)
    have h := ih hxs
    simp only [modelNameOf, List.cons_append, List.find?_cons, hx] at h ⊢
    exact h

/-- The model name when no delivered line has the leading tokens `model` and
`name`. -/
theorem modelNameOf_none (lines : List (List Char))
    (h : ∀ x ∈ lines, isModelNameLine x = false) : modelNameOf lines = [] := by
  induction lines with
  | nil => rfl
  | cons x xs ih =>
    have hx : isModelNameLine x = false := h x (List.mem_cons_self _ _)
    have hxs : ∀ y ∈ xs, isModelNameLine y = false :=
      fun y hy => h y (List.mem_cons_of_mem _ hy)
    have h2 := ih hxs
    simp only [modelNameOf, List.find?_cons, hx] at h2 ⊢
    exact h2

/-- C14 as stated fails: on the line `model name<TAB>: Intel(R) Core(TM) i7`
the tokens behind `model` and `name` are two empty tokens and the three
words; joined by single spaces they give two spaces and the words, while
`parse_cpuinfo` reports the words from index 4 on, each followed by a space.
On `model name a b c d` it reports `c d ` and not `a b c d`. -/
theorem parse_cpuinfo_model_name_not_space_joined :
    cpuTokens "model name\t: Intel(R) Core(TM) i7".toList =
      ["model".toList, "name".toList, [], [], "Intel(R)".toList, "Core(TM)".toList,
        "i7".toList] ∧
    spaceJoined ((cpuTokens "model name\t: Intel(R) Core(TM) i7".toList).drop 2) =
      "  Intel(R) Core(TM) i7".toList ∧
    parse_cpuinfo "model name\t: Intel(R) Core(TM) i7\n".toList =
      .ok ("Intel(R) Core(TM) i7 ".toList, 0) ∧
    spaceJoined ((cpuTokens "model name a b c d".toList).drop 2) = "a b c d".toList ∧
    parse_cpuinfo "model name a b c d\n".toList = .ok ("c d ".toList, 0) := by
  decide!

/-- C14 (amended): for every cpuinfo stream made of newline-terminated lines
that hold no NUL and at most 1021 characters each, none of them the bare word
`model`, the model name reported by `parse_cpuinfo` is taken only from the
first line whose two leading tokens (split on space, colon or tab) are `model`
and `name`, and it equals the tokens of that line from the fifth on (index 4),
each followed by a single space; later `model name` lines (one per core) never
change it, and without such a line the name is empty. -/
theorem parse_cpuinfo_model_name_from_first_line (lines : List (List Char))
    (hfit : ∀ l ∈ lines, LineFits l) (hm : "model".toList ∉ lines) :
    (∀ (pre post : List (List Char)) (l : List Char),
      lines = pre ++ l :: post →
      (∀ x ∈ pre, isModelNameLine x = false) → isModelNameLine l = true →
      ∃ count, parse_cpuinfo (renderLines lines) =
        .ok (spaceTerminated ((cpuTokens l).drop 4), count)) ∧
    ((∀ x ∈ lines, isModelNameLine x = false) →
      ∃ count, parse_cpuinfo (renderLines lines) = .ok ([], count)) := by
  have hd : deliveredLines (renderLines lines) = lines := deliveredLines_renderLines lines hfit
  have h := parse_cpuinfo_eq (renderLines lines) (by rw [hd]; exact hm)
  rw [hd] at h
  refine ⟨?_, ?_⟩
  · intro pre post l hsplit hpre hl
    refine ⟨lines.countP isProcessorLine, ?_⟩
    rw [h]
    have hn : modelNameOf lines = spaceTerminated ((cpuTokens l).drop 4) := by
      rw [hsplit]
      exact modelNameOf_first pre post l hpre hl
    rw [hn]
  · intro hnone
    refine ⟨lines.countP isProcessorLine, ?_⟩
    rw [h, modelNameOf_none lines hnone]

/-- Witness for C14 (amended): two cores; the name comes from the first
`model name` line. -/
theorem parse_cpuinfo_model_name_from_first_line_witness :
    ((∀ l ∈ ["processor\t: 0".toList, "model name\t: Intel(R) Core(TM) i7".toList, [],
        "processor\t: 1".toList, "model name\t: Other".toList], LineFits l) ∧
     "model".toList ∉ ["processor\t: 0".toList, "model name\t: Intel(R) Core(TM) i7".toList, [],
        "processor\t: 1".toList, "model name\t: Other".toList]) ∧
    renderLines ["processor\t: 0".toList, "model name\t: Intel(R) Core(TM) i7".toList, [],
        "processor\t: 1".toList, "model name\t: Other".toList] =
      "processor\t: 0\nmodel name\t: Intel(R) Core(TM) i7\n\nprocessor\t: 1\nmodel name\t: Other\n".toList ∧
    spaceTerminated ((cpuTokens "model name\t: Intel(R) Core(TM) i7".toList).drop 4) =
      "Intel(R) Core(TM) i7 ".toList ∧
    ∃ count, parse_cpuinfo
      (renderLines ["processor\t: 0".toList, "model name\t: Intel(R) Core(TM) i7".toList, [],
        "processor\t: 1".toList, "model name\t: Other".toList]) =
      .ok (spaceTerminated ((cpuTokens "model name\t: Intel(R) Core(TM) i7".toList).drop 4),
        count) :=
  ⟨⟨by decide!, by decide!⟩, by decide!, by decide!,
   (parse_cpuinfo_model_name_from_first_line
      ["processor\t: 0".toList, "model name\t: Intel(R) Core(TM) i7".toList, [],
        "processor\t: 1".toList, "model name\t: Other".toList]
      (by decide!) (by decide!)).1
      ["processor\t: 0".toList] [[], "processor\t: 1".toList, "model name\t: Other".toList]
      "model name\t: Intel(R) Core(TM) i7".toList rfl (by decide!) (by decide!)⟩

/-- The processing-unit count for a stream none of whose lines, as the line
reader delivers them, is the bare word `model`: the number of delivered lines
whose first token is `processor`; for a stream of newline-terminated lines that
fit in the buffer these are the lines of the stream. -/
theorem parse_cpuinfo_counts_processor_lines (cpuinfo : List Char)
    (hm : "model".toList ∉ deliveredLines cpuinfo) :
    (∃ name, parse_cpuinfo cpuinfo =
      .ok (name, (deliveredLines cpuinfo).countP isProcessorLine)) ∧
    (∀ lines : List (List Char), cpuinfo = renderLines lines → (∀ l ∈ lines, LineFits l) →
      ∃ name, parse_cpuinfo cpuinfo = .ok (name, lines.countP isProcessorLine)) := by
  refine ⟨⟨_, parse_cpuinfo_eq cpuinfo hm⟩, ?_⟩
  intro lines hr hfit
  refine ⟨modelNameOf (deliveredLines cpuinfo), ?_⟩
  have h := parse_cpuinfo_eq cpuinfo hm
  rw [hr, deliveredLines_renderLines lines hfit] at h ⊢
  exact h

/-- C15 fails on the code: the stream `processor<TAB>: 0`, newline, `processor`
has two lines whose first token is `processor`, but the last line has no
newline behind it, loses its last character in `read_line` and is seen as
`processo`, so 1 is reported (2 with the newline); on a stream with the line
`model` no count is reported at all, since `tokens[1]` is read unfilled. -/
theorem parse_cpuinfo_miscounts_processor_lines :
    (cpuTokens "processor\t: 0".toList)[0]? = some "processor".toList ∧
    (cpuTokens "processor".toList)[0]? = some "processor".toList ∧
    parse_cpuinfo "processor\t: 0\nprocessor".toList = .ok ([], 1) ∧
    parse_cpuinfo "processor\t: 0\nprocessor\n".toList = .ok ([], 2) ∧
    parse_cpuinfo "processor\t: 0\nmodel\n".toList = .error .uninitialised := by
  decide!

/-! ## Process table: proofs -/

/-- Trimming does not lengthen a string. -/
theorem trimwhitespace_length_le (str : List Char) :
    (trimwhitespace str).length ≤ str.length := by
  have hd : (str.dropWhile isspace).length ≤ str.length :=
    (List.dropWhile_sublist _).length_le
  unfold trimwhitespace
  cases h : str.dropWhile isspace with
  | nil => simp
  | cons c cs =>
    rw [h] at hd
    simp only [List.length_take]
    exact le_trans (Nat.min_le_right _ _) hd

/-- C12 fails on the code: `PID` is not cleared between directory entries and
is tested for every entry.  For the listing `1`, `cpuinfo` the row of process
1 is printed twice, the second time for the entry `cpuinfo`; for the listing
`1`, `2`, where the status file of `2` has no `Pid` line, a row is printed for
`2` with the identifier `1`. -/
theorem num_process_prints_rows_for_entries_without_pid :
    num_process atoiDecimal rootOnly statusOfInit ["1".toList, "cpuinfo".toList] =
      .ok [⟨"1".toList, " ".toList, "init".toList, "root".toList, "1".toList⟩,
           ⟨"1".toList, " ".toList, "init".toList, "root".toList, "1".toList⟩] ∧
    num_process atoiDecimal rootOnly statusOfInit ["1".toList, "2".toList] =
      .ok [⟨"1".toList, " ".toList, "init".toList, "root".toList, "1".toList⟩,
           ⟨"1".toList, "idle".toList, "kthreadd".toList, "7".toList, "3".toList⟩] ∧
    num_process atoiDecimal rootOnly statusOfInit ["1".toList] =
      .ok [⟨"1".toList, " ".toList, "init".toList, "root".toList, "1".toList⟩] := by
  decide!

/-! ## Token positions read by the callers of `tokenize`: evaluation -/

/-- C18 fails on the code: the callers do not compare the positions they read
with the field count.  `get_uptime` reads `p[1]` on a line of one field,
`printkernel` reads `smallList[2]` and `loadavg` reads `tokens[2]` on a line
of two fields, `parse_cpuinfo` reads `tokens[1]` on the line `model`, and
`mem_usage` reads `listTotal[1]` on the line `MemTotal`; none of these slots
was filled by `tokenize`. -/
theorem callers_read_beyond_field_count :
    (tokenizeCount "12345.67".toList [' '] = some 1 ∧
      get_uptime atofDecimal "12345.67\n".toList = .error .uninitialised) ∧
    (tokenizeCount "Linux version".toList [' '] = some 2 ∧
      printkernel "Linux version\n".toList = .error .uninitialised) ∧
    (tokenizeCount "0.52 0.58".toList [' '] = some 2 ∧
      loadavg "0.52 0.58\n".toList = .error .uninitialised) ∧
    (tokenizeCount "model".toList [' ', ':', '\t'] = some 1 ∧
      parse_cpuinfo "model\n".toList = .error .uninitialised) ∧
    (tokenizeCount "MemTotal".toList [':'] = some 1 ∧
      mem_usage atofDecimal "MemTotal\n".toList = .error .uninitialised) := by
  decide!

/-! ## Integer to string: proofs -/

/-- The array `digit` holds the digit characters in order. -/
theorem digitAt_digit (d : Nat) (hd : d < 10) :
    digitAt (d : Int) = .ok (Char.ofNat (48 + d)) := by
  interval_cases d <;> rfl

/-- A number below ten is its own single digit. -/
theorem decimalDigits_of_div_eq_zero (n : Nat) (h : n / 10 = 0) :
    decimalDigits n = [Char.ofNat (48 + n % 10)] := by
  have hlt : n < 10 := by omega
  by_cases h0 : n = 0
  · subst h0; rfl
  · simp [decimalDigits, h0, Nat.digits_of_lt 10 n h0 hlt, Nat.mod_eq_of_lt hlt]

/-- The last digit of a number of ten or more is its remainder by ten. -/
theorem decimalDigits_of_div_ne_zero (n : Nat) (h : n / 10 ≠ 0) :
    decimalDigits n = decimalDigits (n / 10) ++ [Char.ofNat (48 + n % 10)] := by
  have hpos : 0 < n := by omega
  have h0 : n ≠ 0 := by omega
  simp [decimalDigits, h0, h, Nat.digits_def' (by decide : 1 < 10) hpos]

/-- The first loop of `itoa` advances `p` by the number of digits. -/
theorem itoa_skip_eq :
    ∀ (fuel n : Nat) (p : Int), n < 10 ^ fuel → 0 < fuel →
      itoa_skip fuel (n : Int) p = .ok (p + ((decimalDigits n).length : Nat)) ∧
      (decimalDigits n).length ≤ fuel := by
  intro fuel
  induction fuel with
  | zero => intro n p _ h; exact absurd h (lt_irrefl 0)
  | succ fuel ih =>
    intro n p hn _
    have hdiv : (n : Int).tdiv 10 = ((n / 10 : Nat) : Int) := by
      rw [Int.tdiv_eq_ediv (Int.ofNat_nonneg n) (by decide)]; omega
    by_cases h : n / 10 = 0
    · have hz : ((n / 10 : Nat) : Int) = 0 := by exact_mod_cast h
      simp [itoa_skip, hdiv, hz, decimalDigits_of_div_eq_zero n h]
    · have hz : ((n / 10 : Nat) : Int) ≠ 0 := by exact_mod_cast h
      have hlt : n / 10 < 10 ^ fuel := by
        apply Nat.div_lt_of_lt_mul
        rw [pow_succ] at hn; omega
      have hfuel : 0 < fuel := by
        rcases Nat.eq_zero_or_pos fuel with h0 | h0
        · subst h0; simp at hlt; exact absurd hlt h
        · exact h0
      obtain ⟨h1, h2⟩ := ih (n / 10) (p + 1) hlt hfuel
      simp only [itoa_skip, hdiv, ne_eq, hz, not_false_eq_true, if_true, h1,
        decimalDigits_of_div_ne_zero n h, List.length_append, List.length_cons,
        List.length_nil]
      refine ⟨?_, by omega⟩
      congr 1
      push_cast
      omega

/-- A store just behind a run of cells replaces the next cell. -/
theorem store_at_length (a : List (Option Char)) (x : Option Char) (c : List (Option Char))
    (ch : Char) : store (a ++ x :: c) (a.length : Int) ch = a ++ some ch :: c := by
  simp [store]

/-- The second loop of `itoa` fills the cells in front of `p` with the digits. -/
theorem itoa_fill_eq :
    ∀ (fuel n : Nat) (pre gap suf : List (Option Char)), n < 10 ^ fuel → 0 < fuel →
      gap.length = (decimalDigits n).length →
      itoa_fill fuel (n : Int) ((pre.length + gap.length : Nat) : Int) (pre ++ (gap ++ suf)) =
        .ok (pre ++ ((decimalDigits n).map some ++ suf)) := by
  intro fuel
  induction fuel with
  | zero => intro n pre gap suf _ h; exact absurd h (lt_irrefl 0)
  | succ fuel ih =>
    intro n pre gap suf hn _ hgap
    have hdiv : (n : Int).tdiv 10 = ((n / 10 : Nat) : Int) := by
      rw [Int.tdiv_eq_ediv (Int.ofNat_nonneg n) (by decide)]; omega
    have hmod : (n : Int).tmod 10 = ((n % 10 : Nat) : Int) := by
      rw [Int.tmod_eq_emod (Int.ofNat_nonneg n) (by decide)]; omega
    have hd := digitAt_digit (n % 10) (Nat.mod_lt _ (by decide))
    have hgne : gap ≠ [] := by
      intro h0
      rw [h0] at hgap
      by_cases h : n / 10 = 0
      · rw [decimalDigits_of_div_eq_zero n h] at hgap; simp at hgap
      · rw [decimalDigits_of_div_ne_zero n h] at hgap; simp at hgap
    obtain ⟨g, x, rfl⟩ : ∃ g x, gap = g ++ [x] :=
      ⟨gap.dropLast, gap.getLast hgne, (List.dropLast_append_getLast hgne).symm⟩
    have hp : (((pre.length + (g ++ [x]).length : Nat) : Int) - 1) =
        (((pre ++ g).length : Nat) : Int) := by
      simp only [List.length_append, List.length_cons, List.length_nil]; push_cast; omega
    have hb : pre ++ (g ++ [x] ++ suf) = (pre ++ g) ++ x :: suf := by simp
    have hstore : store (pre ++ (g ++ [x] ++ suf))
        (((pre.length + (g ++ [x]).length : Nat) : Int) - 1) (Char.ofNat (48 + n % 10)) =
        pre ++ (g ++ some (Char.ofNat (48 + n % 10)) :: suf) := by
      rw [hp, hb, store_at_length]; simp
    by_cases h : n / 10 = 0
    · have hz : ((n / 10 : Nat) : Int) = 0 := by exact_mod_cast h
      have hg : g = [] := by
        rw [decimalDigits_of_div_eq_zero n h] at hgap
        simp only [List.length_append, List.length_cons, List.length_nil] at hgap
        exact List.eq_nil_of_length_eq_zero (by omega)
      subst hg
      simp only [itoa_fill, hmod, hd, hdiv, hz, bind, Except.bind, pure, Except.pure,
        hstore, decimalDigits_of_div_eq_zero n h]
      simp
    · have hz : ((n / 10 : Nat) : Int) ≠ 0 := by exact_mod_cast h
      have hlt : n / 10 < 10 ^ fuel := by
        apply Nat.div_lt_of_lt_mul
        rw [pow_succ] at hn; omega
      have hfuel : 0 < fuel := by
        rcases Nat.eq_zero_or_pos fuel with h0 | h0
        · subst h0; simp at hlt; exact absurd hlt h
        · exact h0
      have hglen : g.length = (decimalDigits (n / 10)).length := by
        rw [decimalDigits_of_div_ne_zero n h] at hgap
        simp only [List.length_append, List.length_cons, List.length_nil] at hgap
        omega
      have hrec := ih (n / 10) pre g (some (Char.ofNat (48 + n % 10)) :: suf) hlt hfuel hglen
      have hp2 : (((pre.length + (g ++ [x]).length : Nat) : Int) - 1) =
          ((pre.length + g.length : Nat) : Int) := by
        simp only [List.length_append, List.length_cons, List.length_nil]; push_cast; omega
      simp only [itoa_fill, hmod, hd, hdiv, hz, bind, Except.bind, pure, Except.pure,
        hstore, ne_eq, not_false_eq_true, if_true]
      rw [hp2, hrec, decimalDigits_of_div_ne_zero n h]
      simp

/-- No decimal digit is the NUL character. -/
theorem decimalDigits_ne_NUL (n : Nat) : ∀ c ∈ decimalDigits n, c ≠ NUL := by
  intro c hc
  by_cases h0 : n = 0
  · subst h0
    have : c = '0' := by simpa [decimalDigits] using hc
    subst this; decide
  · simp only [decimalDigits, h0, if_false, List.mem_map, List.mem_reverse] at hc
    obtain ⟨d, hd, rfl⟩ := hc
    have hlt : d < 10 := Nat.digits_lt_base (by decide) hd
    interval_cases d <;> decide

/-- The two loops of `itoa` and the store of the NUL between them, for a
non-negative value and cells `pre` already passed: the digits are stored
behind `pre`, followed by the NUL. -/
theorem itoa_loops_eq (n : Nat) (pre rest : List (Option Char)) (hn : n < 10 ^ 11)
    (hrest : (decimalDigits n).length + 1 ≤ rest.length) :
    (itoa_skip 11 (n : Int) ((pre.length : Nat) : Int)).bind
        (fun p => itoa_fill 11 (n : Int) p (store (pre ++ rest) p NUL)) =
      .ok (pre ++ ((decimalDigits n).map some ++
        some NUL :: rest.drop ((decimalDigits n).length + 1))) := by
  obtain ⟨hskip, _⟩ := itoa_skip_eq 11 n ((pre.length : Nat) : Int) hn (by decide)
  have hk : (decimalDigits n).length < rest.length := by omega
  obtain ⟨gap, x, tl, hrest2, hgl, htl⟩ : ∃ gap x tl, rest = gap ++ x :: tl ∧
      gap.length = (decimalDigits n).length ∧
      tl = rest.drop ((decimalDigits n).length + 1) := by
    refine ⟨rest.take (decimalDigits n).length, rest[(decimalDigits n).length],
      rest.drop ((decimalDigits n).length + 1), ?_, ?_, rfl⟩
    · rw [← List.drop_eq_getElem_cons hk, List.take_append_drop]
    · rw [List.length_take]; omega
  rw [← htl, hrest2, hskip]
  have hp : ((pre.length : Nat) : Int) + (((decimalDigits n).length : Nat) : Int) =
      (((pre ++ gap).length : Nat) : Int) := by
    rw [List.length_append, hgl]; push_cast; rfl
  have hstore : store (pre ++ (gap ++ x :: tl))
      (((pre.length : Nat) : Int) + (((decimalDigits n).length : Nat) : Int)) NUL =
      pre ++ (gap ++ some NUL :: tl) := by
    rw [hp, ← List.append_assoc, store_at_length]; simp
  have hfill := itoa_fill_eq 11 n pre gap (some NUL :: tl) hn (by decide) hgl
  rw [hgl] at hfill
  simp only [Except.bind, hstore]
  have hp3 : ((pre.length : Nat) : Int) + (((decimalDigits n).length : Nat) : Int) =
      ((pre.length + (decimalDigits n).length : Nat) : Int) := by push_cast; rfl
  rw [hp3]
  exact hfill

/-- For every `int` except the smallest one, `itoa` leaves the decimal
representation in an array of at least 12 cells. -/
theorem itoaString_eq_decimal (cap : Nat) (i : Int) (hcap : 12 ≤ cap)
    (hlo : -2147483648 < i) (hhi : i < 2147483648) :
    itoaString cap i = .ok (decimal i) := by
  obtain ⟨x, tl, hb, htl⟩ : ∃ x tl, List.replicate cap (none : Option Char) = x :: tl ∧
      tl.length = cap - 1 := by
    cases cap with
    | zero => omega
    | succ c => exact ⟨none, List.replicate c none, rfl, by simp⟩
  by_cases hneg : i < 0
  · obtain ⟨n, hn⟩ : ∃ n : Nat, i = -(n : Int) := ⟨i.natAbs, by omega⟩
    subst hn
    have hn10 : n < 10 ^ 10 := by norm_num; omega
    have hn11 : n < 10 ^ 11 := by norm_num; omega
    have hlen := (itoa_skip_eq 10 n 0 hn10 (by decide)).2
    have hw : wrap32 (-(n : Int) * -1) = (n : Int) := by
      simp only [wrap32]; omega
    have h := itoa_loops_eq n [some '-'] tl hn11 (by omega)
    have hst : store (x :: tl) 0 '-' = [some '-'] ++ tl := by simp [store]
    have hdec : decimal (-(n : Int)) = '-' :: decimalDigits n := by
      simp [decimal, hneg]
    have hnul : ∀ c ∈ '-' :: decimalDigits n, c ≠ NUL := by
      intro c hc
      rcases List.mem_cons.mp hc with hc | hc
      · subst hc; decide
      · exact decimalDigits_ne_NUL n c hc
    simp only [List.length_singleton, Nat.cast_one] at h
    simp only [itoaString, itoa, hb, hneg, if_true, hw, hst, bind]
    rw [h]
    simp only [Except.bind, hdec]
    exact cstr_prefix ('-' :: decimalDigits n) _ hnul
  · obtain ⟨n, hn⟩ : ∃ n : Nat, i = (n : Int) := ⟨i.toNat, by omega⟩
    subst hn
    have hn10 : n < 10 ^ 10 := by norm_num; omega
    have hn11 : n < 10 ^ 11 := by norm_num; omega
    have hlen := (itoa_skip_eq 10 n 0 hn10 (by decide)).2
    have h := itoa_loops_eq n [] (x :: tl) hn11 (by simp only [List.length_cons]; omega)
    have hdec : decimal (n : Int) = decimalDigits n := by
      simp [decimal, hneg]
    simp only [List.length_nil, Nat.cast_zero, List.nil_append] at h
    simp only [itoaString, itoa, hb, hneg, if_false, bind]
    rw [h]
    simp only [Except.bind, hdec]
    exact cstr_prefix (decimalDigits n) _ (decimalDigits_ne_NUL n)

/-! ## Live CPU usage: proofs -/

/-- When the second components of the two samples differ, the live estimator
and the one-shot estimator return the same value. -/
theorem cpu_usage_liveview_eq_of_ne (atof : List Char → ℚ) (uptime1 uptime2 : List Char)
    (first second : ℚ × ℚ)
    (h1 : get_uptime atof uptime1 = .ok first) (h2 : get_uptime atof uptime2 = .ok second)
    (hne : second.2 - first.2 ≠ 0) :
    cpu_usage_liveview atof first uptime2 = cpu_usage atof uptime1 uptime2 := by
  simp [cpu_usage_liveview, cpu_usage, cpu_time, h1, h2, hne, bind, Except.bind, pure,
    Except.pure]

/-- When the second components of the two samples are equal, the one-shot
estimator returns zero and the live estimator divides by zero. -/
theorem cpu_usage_liveview_of_eq (atof : List Char → ℚ) (uptime1 uptime2 : List Char)
    (first second : ℚ × ℚ)
    (h1 : get_uptime atof uptime1 = .ok first) (h2 : get_uptime atof uptime2 = .ok second)
    (heq : second.2 - first.2 = 0) :
    cpu_usage atof uptime1 uptime2 = .ok 0 ∧
    cpu_usage_liveview atof first uptime2 = .error .divisionByZero := by
  simp [cpu_usage_liveview, cpu_usage, cpu_time, h1, h2, heq, bind, Except.bind, pure,
    Except.pure]

/-- C21 fails on the code: for the baseline sample (100, 50) and the fresh
sample (102, 50), whose second fields are equal, `cpu_usage` returns `0`
through its test of the divisor, while `cpu_usage_liveview` has no such test
and evaluates a quotient with divisor zero.  On the fresh sample (102, 51)
both return the same value. -/
theorem cpu_usage_liveview_divides_by_zero_delta :
    get_uptime atofDecimal "100.00 50.00\n".toList = .ok (100, 50) ∧
    cpu_usage atofDecimal "100.00 50.00\n".toList "102.00 50.00\n".toList = .ok 0 ∧
    cpu_usage_liveview atofDecimal (100, 50) "102.00 50.00\n".toList =
      .error .divisionByZero ∧
    cpu_usage_liveview atofDecimal (100, 50) "102.00 51.00\n".toList =
      cpu_usage atofDecimal "100.00 50.00\n".toList "102.00 51.00\n".toList := by
  decide!

/-! ## Field count: proofs -/

/-- The number of segments is one more than the number of delimiter
characters. -/
theorem cutAtDelims_length (D : List Char) (s : List Char) :
    (cutAtDelims D s).length = s.countP (fun c => decide (c ∈ D)) + 1 := by
  induction s with
  | nil => simp [cutAtDelims]
  | cons c cs ih =>
    have hne := cutAtDelims_ne_nil D cs
    cases hcut : cutAtDelims D cs with
    | nil => exact absurd hcut hne
    | cons seg rest =>
      rw [hcut] at ih
      by_cases hc : c ∈ D
      · simp [cutAtDelims, hc, hcut, List.countP_cons, ← ih]
      · simp [cutAtDelims, hc, hcut, List.countP_cons, ← ih]

/-- C22: for every line `s` and every delimiter set `D`, the field count
returned by `tokenize(s, D)` is exactly one more than the number of
characters of `s` that belong to `D`, hence at least 1 and at most
`strlen(s) + 1`; every slot `tokenize` fills therefore lies inside an array
of `strlen(s) + 1` slots, as `parse_cpuinfo` and `loadavg` allocate. -/
theorem tokenize_count_eq_delimiters_succ :
    (∀ s D : List Char,
      tokenizeCount s D = some (s.countP (fun c => decide (c ∈ D)) + 1)) ∧
    (∀ s D : List Char, ∃ rv, tokenizeCount s D = some rv ∧ 1 ≤ rv ∧ rv ≤ s.length + 1) ∧
    (∀ s D : List Char, ∃ toks, tokenize s D = some toks ∧
      ∀ i, i < toks.length → i < s.length + 1) ∧
    tokenizeCount "model name\t: X".toList [' ', ':', '\t'] = some 5 ∧
    tokenizeCount "0.52 0.58 0.59 1/257 12345".toList [' '] = some 5 ∧
    tokenizeCount ":::".toList [':'] = some 4 ∧
    tokenizeCount [] [' '] = some 1 := by
  have hcount : ∀ s D : List Char,
      tokenizeCount s D = some (s.countP (fun c => decide (c ∈ D)) + 1) := by
    intro s D
    simp only [tokenizeCount, tokenize_eq, Option.map_some', cutAtDelims_length]
  have hle : ∀ s D : List Char, s.countP (fun c => decide (c ∈ D)) + 1 ≤ s.length + 1 :=
    fun s D => Nat.succ_le_succ (List.countP_le_length _)
  refine ⟨hcount, ?_, ?_, by decide, by decide, by decide, by decide⟩
  · intro s D
    exact ⟨_, hcount s D, Nat.succ_le_succ (Nat.zero_le _), hle s D⟩
  · intro s D
    refine ⟨cutAtDelims D s, tokenize_eq s D, ?_⟩
    intro i hi
    rw [cutAtDelims_length] at hi
    exact lt_of_lt_of_le hi (hle s D)

end Inspector
